import Mathlib

set_option maxRecDepth 100000
set_option maxHeartbeats 2000000

/-!
Verification development for the doppelgit repository, a minimal
content-addressed version-control engine.

Python byte strings and text strings are both embedded as `List Char`
(one `Char` per byte / code point).  The object store (one file per
object under `objects/`) is an association list from digest to stored
bytes where a write prepends and a read takes the first match, which
models overwriting a file at that path.  The reference store (ref files
under the git directory) is an association list from ref name to file
content.  The SHA-1 digest function is a parameter `H : List Char →
List Char` of every definition that hashes; its few relevant properties
(for instance collision-freeness on the objects actually written) appear
as explicit, decidable hypotheses.
-/

namespace Doppelgit

abbrev Bytes := List Char

/-- The NUL byte separating type from payload in a stored object. -/
def nulC : Char := Char.ofNat 0

/-- Association-list lookup: first binding wins (a later write to the
same file path shadows, since writes prepend). -/
def lookupA {α : Type} (s : List (Bytes × α)) (k : Bytes) : Option α :=
  match s with
  | [] => none
  | (k', v) :: rest => if k' = k then some v else lookupA rest k

/-- Replace the binding of `k` in place if present, else append.
Models overwriting / creating a file while keeping directory identity. -/
def setA (s : List (Bytes × Bytes)) (k v : Bytes) : List (Bytes × Bytes) :=
  match s with
  | [] => [(k, v)]
  | (k', v') :: rest => if k' = k then (k, v) :: rest else (k', v') :: setA rest k v

/-- Remove the binding of `k` (first occurrence). Models deleting a file. -/
def removeA (s : List (Bytes × Bytes)) (k : Bytes) : List (Bytes × Bytes) :=
  match s with
  | [] => []
  | (k', v') :: rest => if k' = k then rest else (k', v') :: removeA rest k

/-- `bytes.partition(b"\x00")` as used by `get_object`: everything before
the first NUL, and everything after it (both empty parts when no NUL,
matching Python's `(whole, "", "")`). -/
def partitionNul : Bytes → Bytes × Bytes
  | [] => ([], [])
  | c :: cs =>
    if c = nulC then ([], cs)
    else
      let p := partitionNul cs
      (c :: p.1, p.2)

/-- The object store: digest ↦ stored file content, newest write first. -/
abbrev Store := List (Bytes × Bytes)

def blobT : Bytes := "blob".data
def treeT : Bytes := "tree".data
def commitT : Bytes := "commit".data

/-- data.hash_object: builds `type ++ 0x00 ++ data`, digests it with the
hash function and writes the object file at that digest. -/
def hash_object (H : Bytes → Bytes) (s : Store) (data : Bytes) (ty : Bytes) :
    Bytes × Store :=
  let obj := ty ++ nulC :: data
  let oid := H obj
  (oid, (oid, obj) :: s)

/-- data.get_object: reads the object file, splits type from content at
the first NUL and checks the type against `expected` when given
(`none` result models the missing-file error or the failed assert). -/
def get_object (s : Store) (oid : Bytes) (expected : Option Bytes) : Option Bytes :=
  match lookupA s oid with
  | none => none
  | some obj =>
    let p := partitionNul obj
    match expected with
    | none => some p.2
    | some e => if p.1 = e then some p.2 else none

/-- data.object_exists. -/
def object_exists (s : Store) (oid : Bytes) : Bool :=
  (lookupA s oid).isSome

theorem partitionNul_append (ty payload : Bytes) (h : nulC ∉ ty) :
    partitionNul (ty ++ nulC :: payload) = (ty, payload) := by
  induction ty with
  | nil => simp [partitionNul]
  | cons c cs ih =>
    have hc : c ≠ nulC := fun hh => h (hh ▸ List.mem_cons_self c cs)
    have hcs : nulC ∉ cs := fun hh => h (List.mem_cons_of_mem c hh)
    simp [partitionNul, hc, ih hcs]

theorem lookupA_head (s : Store) (k v : Bytes) :
    lookupA ((k, v) :: s) k = some v := by
  simp [lookupA]

/-- A concrete, injective stand-in for the SHA-1 hex digest used by the
witnesses: each byte becomes a marker plus its decimal code. -/
def hexH (l : Bytes) : Bytes :=
  'h' :: l.flatMap (fun c => 'x' :: Nat.toDigits 10 c.toNat)

/-- A cheap two-character digest used by witnesses whose evaluation the
kernel must carry out; the collision-freeness the theorems assume is
checked explicitly on the concrete objects involved. -/
def tinyH (l : Bytes) : Bytes :=
  ['h', Char.ofNat (256 + (l.foldl (fun a c => a * 7 + c.toNat) 3) % 2048)]

/-- C1: for every payload and (NUL-free) type, `hash_object` computes the
digest as the hash of `type ++ 0x00 ++ payload`; `get_object` on that
digest returns the original payload with the type check passing; and
hashing the same payload and type again (from any store) yields the same
digest.  The three object types of the data model (blob, tree, commit)
are all NUL-free, so the hypothesis covers the spec's whole type domain. -/
theorem c1_content_addressing (H : Bytes → Bytes) (s s₂ : Store)
    (payload ty : Bytes) (hty : nulC ∉ ty) :
    (hash_object H s payload ty).1 = H (ty ++ nulC :: payload) ∧
    get_object (hash_object H s payload ty).2 (hash_object H s payload ty).1
      (some ty) = some payload ∧
    (hash_object H s₂ payload ty).1 = (hash_object H s payload ty).1 := by
  refine ⟨rfl, ?_, rfl⟩
  simp [hash_object, get_object, lookupA_head, partitionNul_append ty payload hty]

/-- Witness for C1 at a concrete payload and the blob type. -/
theorem c1_witness :
    nulC ∉ blobT ∧
    ((hash_object hexH [] "hi".data blobT).1 = hexH (blobT ++ nulC :: "hi".data) ∧
     get_object (hash_object hexH [] "hi".data blobT).2
       (hash_object hexH [] "hi".data blobT).1 (some blobT) = some "hi".data ∧
     (hash_object hexH [("k".data, "v".data)] "hi".data blobT).1 =
       (hash_object hexH [] "hi".data blobT).1) :=
  ⟨by decide, c1_content_addressing hexH [] [("k".data, "v".data)] "hi".data blobT (by decide)⟩

/-! ## Reference store (data.py) -/

/-- data.RefValue. -/
structure RefValue where
  symbolic : Bool
  value : Option Bytes
deriving DecidableEq, Repr

/-- The reference store: ref name (relative path inside the git
directory, e.g. `HEAD` or `refs/heads/master`) ↦ ref file content. -/
abbrev Refs := List (Bytes × Bytes)

def headName : Bytes := "HEAD".data
def mergeHeadName : Bytes := "MERGE_HEAD".data

/-- Characters Python's `str.strip()` and `str.split()` treat as
whitespace (the ASCII ones, which are the only ones arising here). -/
def isWs (c : Char) : Bool :=
  c = ' ' || c = '\t' || c = '\n' || c = '\r' || c = Char.ofNat 11 || c = Char.ofNat 12

/-- Python `str.strip()`. -/
def stripWs (l : Bytes) : Bytes :=
  ((l.dropWhile isWs).reverse.dropWhile isWs).reverse

/-- Everything after the first `:`; `value.split(":", 1)[1]` for a value
that starts with `ref:`. -/
def afterColon : Bytes → Bytes
  | [] => []
  | c :: cs => if c = ':' then cs else afterColon cs

def refColon : Bytes := "ref:".data

/-- Truthiness of an optional string, as Python's `bool(value)`. -/
def truthy : Option Bytes → Bool
  | some (_ :: _) => true
  | _ => false

/-- One read of a ref file, as performed by `_get_ref_internal` before it
decides whether to recurse: the stripped content when the file exists,
plus whether it is symbolic, and the parsed value. -/
def readRefStep (rs : Refs) (ref : Bytes) : Bool × Option Bytes :=
  let value := (lookupA rs ref).map stripWs
  let symb :=
    match value with
    | some v => truthy (some v) && refColon.isPrefixOf v
    | none => false
  if symb then (true, some (stripWs (afterColon ((value.getD [])))))
  else (false, value)

/-- data._get_ref_internal.  The Python recursion on the target ref name
has no bound at all; `fuel` only makes the embedding total, with `none`
meaning the recursion has not returned within `fuel` hops. -/
def get_ref_internal (rs : Refs) : Nat → Bytes → Bool → Option (Bytes × RefValue)
  | 0, _, _ => none
  | fuel + 1, ref, deref =>
    let st := readRefStep rs ref
    if st.1 then
      if deref then get_ref_internal rs fuel ((st.2).getD []) true
      else some (ref, ⟨true, st.2⟩)
    else some (ref, ⟨false, st.2⟩)

/-- data.get_ref. -/
def get_ref (rs : Refs) (fuel : Nat) (ref : Bytes) (deref : Bool) : Option RefValue :=
  (get_ref_internal rs fuel ref deref).map (·.2)

/-- data.update_ref: writes `value` at the path named `ref` itself.  The
`deref` parameter is declared by the source but never used; the function
also annotates `value: str`, so the embedding takes the string that the
callers intend to store. -/
def update_ref (rs : Refs) (ref : Bytes) (value : Bytes) (_deref : Bool) : Refs :=
  setA rs ref value

/-- data.delete_ref: resolves with `deref=False` (which always returns
the given name itself) and removes that file; `none` models the
`FileNotFoundError` from `os.remove` when no such ref file exists. -/
def delete_ref (rs : Refs) (ref : Bytes) : Option Refs :=
  match get_ref_internal rs 1 ref false with
  | none => none
  | some (name, _) =>
    if (lookupA rs name).isSome then some (removeA rs name) else none

def refsSlash : Bytes := "refs/".data

/-- The ref names data.iter_refs enumerates: `HEAD`, `MERGE_HEAD`, then
every ref file under `refs/` (our flat ref store keyed by relative
path). -/
def iterRefNames (rs : Refs) : List Bytes :=
  headName :: mergeHeadName :: (rs.map (·.1)).filter (fun n => refsSlash.isPrefixOf n)

def iterRefsGo (rs : Refs) (fuel : Nat) (deref : Bool) :
    List Bytes → Option (List (Bytes × RefValue))
  | [] => some []
  | n :: rest =>
    match get_ref rs fuel n deref with
    | none => none
    | some r =>
      match iterRefsGo rs fuel deref rest with
      | none => none
      | some tail => if truthy r.value then some ((n, r) :: tail) else some tail

/-- data.iter_refs: refs with the given name prefix whose resolved value
is truthy. -/
def iter_refs (rs : Refs) (fuel : Nat) (pre : Bytes) (deref : Bool) :
    Option (List (Bytes × RefValue)) :=
  iterRefsGo rs fuel deref ((iterRefNames rs).filter (fun n => pre.isPrefixOf n))

/-! ## C10: empty refs resolve without error and are hidden by iter_refs -/

theorem get_ref_internal_missing (rs : Refs) (name : Bytes) (fuel : Nat)
    (h : lookupA rs name = none) :
    get_ref_internal rs (fuel + 1) name true = some (name, ⟨false, none⟩) := by
  simp [get_ref_internal, readRefStep, h, truthy]

theorem get_ref_missing_cases (rs : Refs) (name : Bytes) (fuel : Nat)
    (h : lookupA rs name = none) (r : RefValue)
    (hr : get_ref rs fuel name true = some r) : r = ⟨false, none⟩ := by
  cases fuel with
  | zero => simp [get_ref, get_ref_internal] at hr
  | succ n =>
    rw [get_ref, get_ref_internal_missing rs name n h] at hr
    simpa using hr.symm

theorem iterRefsGo_skips_empty (rs : Refs) (fuel : Nat) (name : Bytes)
    (hskip : ∀ r, get_ref rs fuel name true = some r → truthy r.value = false) :
    ∀ ns out, iterRefsGo rs fuel true ns = some out → lookupA out name = none := by
  intro ns
  induction ns with
  | nil =>
    intro out hout
    simp only [iterRefsGo, Option.some.injEq] at hout
    rw [← hout]
    rfl
  | cons n rest ih =>
    intro out hout
    cases hg : get_ref rs fuel n true with
    | none => simp [iterRefsGo, hg] at hout
    | some r =>
      cases htail : iterRefsGo rs fuel true rest with
      | none => simp [iterRefsGo, hg, htail] at hout
      | some tail =>
        simp only [iterRefsGo, hg, htail] at hout
        by_cases hn : n = name
        · subst hn
          rw [hskip r hg] at hout
          simp only [Bool.false_eq_true, if_false, Option.some.injEq] at hout
          exact hout ▸ ih tail htail
        · cases hv : truthy r.value with
          | true =>
            rw [hv] at hout
            simp only [if_true, Option.some.injEq] at hout
            rw [← hout]
            simp only [lookupA, if_neg hn]
            exact ih tail htail
          | false =>
            rw [hv] at hout
            simp only [Bool.false_eq_true, if_false, Option.some.injEq] at hout
            exact hout ▸ ih tail htail

/-- C10: a ref name with no stored entry resolves without an error to
`RefValue(symbolic=False, value=None)`, and such empty refs never appear
in the listing `iter_refs` produces. -/
theorem c10_empty_refs (rs : Refs) (name pre : Bytes) (fuel fuel₂ : Nat)
    (out : List (Bytes × RefValue)) (h : lookupA rs name = none)
    (hout : iter_refs rs fuel₂ pre true = some out) :
    get_ref rs (fuel + 1) name true = some ⟨false, none⟩ ∧
    lookupA out name = none := by
  constructor
  · simp [get_ref, get_ref_internal_missing rs name fuel h]
  · refine iterRefsGo_skips_empty rs fuel₂ name ?_ _ out hout
    intro r hr
    have := get_ref_missing_cases rs name fuel₂ h r hr
    subst this
    rfl

/-- Witness for C10: a two-ref store, a name with no entry, and a
concrete iter_refs run. -/
theorem c10_witness :
    lookupA [(headName, "ref: refs/heads/master".data),
             ("refs/heads/master".data, "c1".data)] "refs/heads/other".data =
      (none : Option Bytes) ∧
    iter_refs [(headName, "ref: refs/heads/master".data),
               ("refs/heads/master".data, "c1".data)] 4 [] true =
      some [(headName, ⟨false, some "c1".data⟩),
            ("refs/heads/master".data, ⟨false, some "c1".data⟩)] ∧
    get_ref [(headName, "ref: refs/heads/master".data),
             ("refs/heads/master".data, "c1".data)] 3 "refs/heads/other".data true =
      some ⟨false, none⟩ ∧
    lookupA [(headName, ⟨false, some "c1".data⟩),
             ("refs/heads/master".data, ⟨false, some "c1".data⟩)]
      "refs/heads/other".data = (none : Option RefValue) := by
  refine ⟨by decide, by decide, ?_⟩
  have h := c10_empty_refs
    [(headName, "ref: refs/heads/master".data), ("refs/heads/master".data, "c1".data)]
    "refs/heads/other".data [] 2 4
    [(headName, ⟨false, some "c1".data⟩),
     ("refs/heads/master".data, ⟨false, some "c1".data⟩)]
    (by decide) (by decide)
  exact h

/-! ## C4: symbolic chain resolution -/

theorem get_ref_internal_terminal (rs : Refs) :
    ∀ (fuel : Nat) (ref nm : Bytes) (rv : RefValue),
      get_ref_internal rs fuel ref true = some (nm, rv) →
      rv.symbolic = false ∧ get_ref_internal rs 1 nm false = some (nm, rv) := by
  intro fuel
  induction fuel with
  | zero => intro ref nm rv h; simp [get_ref_internal] at h
  | succ n ih =>
    intro ref nm rv h
    simp only [get_ref_internal] at h
    by_cases hs : (readRefStep rs ref).1
    · rw [if_pos hs] at h
      simp only [if_pos trivial] at h
      exact ih _ nm rv (by simpa using h)
    · rw [if_neg hs] at h
      have h1 : nm = ref ∧ rv = ⟨false, (readRefStep rs ref).2⟩ := by
        have := h
        simp at this
        exact ⟨this.1.symm, this.2.symm⟩
      obtain ⟨he, hv⟩ := h1
      subst he; subst hv
      constructor
      · rfl
      · simp [get_ref_internal, hs]

/-- The cyclic two-ref store used to show the missing cycle guard. -/
def cycRefs : Refs :=
  [("refs/a".data, "ref: refs/b".data), ("refs/b".data, "ref: refs/a".data)]

theorem cyc_never_returns :
    ∀ fuel, get_ref_internal cycRefs fuel "refs/a".data true = none ∧
            get_ref_internal cycRefs fuel "refs/b".data true = none := by
  intro fuel
  induction fuel with
  | zero => exact ⟨rfl, rfl⟩
  | succ n ih =>
    have ha : readRefStep cycRefs "refs/a".data = (true, some "refs/b".data) := by decide
    have hb : readRefStep cycRefs "refs/b".data = (true, some "refs/a".data) := by decide
    constructor
    · simpa [get_ref_internal, ha] using ih.2
    · simpa [get_ref_internal, hb] using ih.1

/-- C4 (amended): resolution with deref=true follows symbolic links and,
whenever it returns, returns a terminal pair — a non-symbolic RefValue
that re-reading the returned name directly reproduces; but the chain
following has no hop bound and produces no RefCycle error: on a cyclic
chain (two refs pointing at each other) resolution returns no result no
matter how many hops are allowed. -/
theorem c4_resolution_amended :
    (∀ (rs : Refs) (fuel : Nat) (ref nm : Bytes) (rv : RefValue),
      get_ref_internal rs fuel ref true = some (nm, rv) →
      rv.symbolic = false ∧ get_ref_internal rs 1 nm false = some (nm, rv)) ∧
    (∀ fuel, get_ref_internal cycRefs fuel "refs/a".data true = none) :=
  ⟨fun rs fuel => get_ref_internal_terminal rs fuel,
   fun fuel => (cyc_never_returns fuel).1⟩

/-- Witness for C4: the amended theorem applied to a concrete two-link
chain ending at a direct ref, and to the cyclic store at 7 hops. -/
theorem c4_resolution_witness :
    (RefValue.symbolic ⟨false, some "c1".data⟩ = false ∧
     get_ref_internal [(headName, "ref: refs/heads/master".data),
                       ("refs/heads/master".data, "c1".data)] 1
       "refs/heads/master".data false =
       some ("refs/heads/master".data, ⟨false, some "c1".data⟩)) ∧
    get_ref_internal cycRefs 7 "refs/a".data true = none :=
  ⟨c4_resolution_amended.1
    [(headName, "ref: refs/heads/master".data), ("refs/heads/master".data, "c1".data)]
    3 headName "refs/heads/master".data ⟨false, some "c1".data⟩ (by decide),
   c4_resolution_amended.2 7⟩

/-- C4 counterexample: at a concrete cyclic ref store, resolution yields
no result even when allowed 100 hops — there is no bounded-hop RefCycle
failure; the recursion simply never returns. -/
theorem c4_counterexample :
    get_ref_internal cycRefs 100 "refs/a".data true = none := by decide

/-! ## C3: update_ref ignores deref -/

/-- C3 (code bug): with HEAD symbolic to refs/heads/master, updating
`HEAD` with deref=true writes the new value at `HEAD` itself: the branch
ref keeps its old value and HEAD stops being symbolic, contradicting the
documented transparent-advance behaviour (the source declares the
`deref` parameter and never reads it). -/
theorem c3_update_ref_ignores_deref :
    lookupA (update_ref [(headName, "ref: refs/heads/master".data),
                         ("refs/heads/master".data, "c1".data)]
             headName "d2".data true) headName = some "d2".data ∧
    lookupA (update_ref [(headName, "ref: refs/heads/master".data),
                         ("refs/heads/master".data, "c1".data)]
             headName "d2".data true) "refs/heads/master".data = some "c1".data ∧
    get_ref (update_ref [(headName, "ref: refs/heads/master".data),
                         ("refs/heads/master".data, "c1".data)]
             headName "d2".data true) 1 headName false =
      some ⟨false, some "d2".data⟩ := by
  refine ⟨by decide, by decide, by decide⟩

/-! ## Trees (base.py): write_tree, get_tree and the flattened mapping -/

/-- A snapshot of a directory tree as the filesystem enumerates it: a
file's content, or a directory's children in enumeration order. -/
inductive Fsnode where
  | file (content : Bytes)
  | dir (children : List (Bytes × Fsnode))

instance : Inhabited Fsnode := ⟨Fsnode.file []⟩

/-- Structural induction over child lists of a directory snapshot. -/
def fsInd (P : List (Bytes × Fsnode) → Prop)
    (hnil : P [])
    (hfile : ∀ n c rest, P rest → P ((n, Fsnode.file c) :: rest))
    (hdir : ∀ n ccs rest, P ccs → P rest → P ((n, Fsnode.dir ccs) :: rest)) :
    ∀ l, P l
  | [] => hnil
  | (n, Fsnode.file c) :: rest => hfile n c rest (fsInd P hnil hfile hdir rest)
  | (n, Fsnode.dir ccs) :: rest =>
    hdir n ccs rest (fsInd P hnil hfile hdir ccs) (fsInd P hnil hfile hdir rest)

/-- A write_tree entry `(entry.name, oid, type_)` as accumulated before
sorting. -/
abbrev TEntry := Bytes × Bytes × Bytes

/-- Strict lexicographic comparison of byte strings, code point by code
point, as Python compares strings.  A hand-rolled Bool comparator keeps
kernel evaluation of the sort cheap. -/
def lexLtB : List Char → List Char → Bool
  | [], [] => false
  | [], _ :: _ => true
  | _ :: _, [] => false
  | a :: as, b :: bs =>
    if a < b then true else if b < a then false else lexLtB as bs

theorem lexLtB_irrefl : ∀ a, lexLtB a a = false := by
  intro a
  induction a with
  | nil => rfl
  | cons c cs ih => simp [lexLtB, ih]

theorem lexLtB_ne (a b : List Char) (h : lexLtB a b = true) : a ≠ b := by
  intro he
  rw [he, lexLtB_irrefl] at h
  cases h

theorem lexLtB_asymm : ∀ a b, lexLtB a b = true → lexLtB b a = false := by
  intro a
  induction a with
  | nil =>
    intro b h
    cases b with
    | nil => simp [lexLtB] at h
    | cons d ds => rfl
  | cons c cs ih =>
    intro b h
    cases b with
    | nil => simp [lexLtB] at h
    | cons d ds =>
      rw [lexLtB] at h ⊢
      by_cases h1 : c < d
      · rw [if_neg (lt_asymm h1), if_pos h1]
      · rw [if_neg h1] at h
        by_cases h2 : d < c
        · rw [if_pos h2] at h
          cases h
        · rw [if_neg h2] at h
          rw [if_neg h2, if_neg h1]
          exact ih ds h

theorem lexLtB_total : ∀ a b, a ≠ b → lexLtB a b = true ∨ lexLtB b a = true := by
  intro a
  induction a with
  | nil =>
    intro b hne
    cases b with
    | nil => exact absurd rfl hne
    | cons d ds => exact Or.inl rfl
  | cons c cs ih =>
    intro b hne
    cases b with
    | nil => exact Or.inr rfl
    | cons d ds =>
      rcases lt_trichotomy c d with h | h | h
      · exact Or.inl (by rw [lexLtB, if_pos h])
      · subst h
        have hne2 : cs ≠ ds := fun he => hne (by rw [he])
        rcases ih ds hne2 with h2 | h2
        · exact Or.inl (by rw [lexLtB, if_neg (lt_irrefl c), if_neg (lt_irrefl c)]; exact h2)
        · exact Or.inr (by rw [lexLtB, if_neg (lt_irrefl c), if_neg (lt_irrefl c)]; exact h2)
      · exact Or.inr (by rw [lexLtB, if_pos h])

theorem lexLtB_trans : ∀ a b c, lexLtB a b = true → lexLtB b c = true →
    lexLtB a c = true := by
  intro a
  induction a with
  | nil =>
    intro b c hab hbc
    cases c with
    | nil =>
      cases b with
      | nil => exact hab
      | cons d ds => simp [lexLtB] at hbc
    | cons e es => rfl
  | cons x xs ih =>
    intro b c hab hbc
    cases b with
    | nil => simp [lexLtB] at hab
    | cons y ys =>
      cases c with
      | nil => simp [lexLtB] at hbc
      | cons z zs =>
        rw [lexLtB] at hab hbc ⊢
        by_cases h1 : x < y
        · by_cases h2 : y < z
          · rw [if_pos (lt_trans h1 h2)]
          · rw [if_neg h2] at hbc
            by_cases h3 : z < y
            · rw [if_pos h3] at hbc
              cases hbc
            · have : y = z := le_antisymm (not_lt.mp h3) (not_lt.mp h2)
              rw [if_pos (this ▸ h1)]
        · rw [if_neg h1] at hab
          by_cases h1b : y < x
          · rw [if_pos h1b] at hab
            cases hab
          · have hxy : x = y := le_antisymm (not_lt.mp h1b) (not_lt.mp h1)
            subst hxy
            by_cases h2 : x < z
            · rw [if_pos h2]
            · rw [if_neg h2] at hbc ⊢
              by_cases h3 : z < x
              · rw [if_pos h3] at hbc
                cases hbc
              · rw [if_neg h3] at hbc ⊢
                rw [if_neg h1] at hab
                exact ih ys zs hab hbc

theorem lexNLt_trans (a b c : List Char) (h1 : lexLtB b a = false)
    (h2 : lexLtB c b = false) : lexLtB c a = false := by
  by_contra h3
  have h3t : lexLtB c a = true := by
    cases hc : lexLtB c a
    · exact absurd hc h3
    · rfl
  by_cases hba : b = a
  · rw [hba] at h2
    rw [h2] at h3t
    cases h3t
  · rcases lexLtB_total b a hba with h | h
    · rw [h] at h1
      cases h1
    · have := lexLtB_trans c a b h3t h
      rw [this] at h2
      cases h2

theorem lexLtB_eq_of_not (a b : List Char) (h1 : lexLtB a b = false)
    (h2 : lexLtB b a = false) : a = b := by
  by_contra hne
  rcases lexLtB_total a b hne with h | h
  · rw [h] at h1
    cases h1
  · rw [h] at h2
    cases h2

/-- Python tuple comparison on `(name, oid, type)` entries: lexicographic
by component, strings compared code point by code point. -/
def entryLeB (a b : TEntry) : Bool :=
  if a.1 = b.1 then
    if a.2.1 = b.2.1 then !(lexLtB b.2.2 a.2.2)
    else lexLtB a.2.1 b.2.1
  else lexLtB a.1 b.1

def entryLe (a b : TEntry) : Prop := entryLeB a b = true

instance : DecidableRel entryLe := fun a b =>
  instDecidableEqBool (entryLeB a b) true

instance : IsTotal TEntry entryLe := ⟨by
  intro a b
  unfold entryLe entryLeB
  by_cases e1 : a.1 = b.1
  · rw [if_pos e1, if_pos e1.symm]
    by_cases f1 : a.2.1 = b.2.1
    · rw [if_pos f1, if_pos f1.symm]
      by_cases g : lexLtB b.2.2 a.2.2 = true
      · right
        rw [lexLtB_asymm _ _ g]
        rfl
      · left
        cases hg : lexLtB b.2.2 a.2.2
        · rfl
        · exact absurd hg g
    · rw [if_neg f1, if_neg (fun h => f1 h.symm)]
      exact lexLtB_total a.2.1 b.2.1 f1
  · rw [if_neg e1, if_neg (fun h => e1 h.symm)]
    exact lexLtB_total a.1 b.1 e1⟩

instance : IsTrans TEntry entryLe := ⟨by
  intro a b c hab hbc
  unfold entryLe entryLeB at hab hbc ⊢
  by_cases e1 : a.1 = b.1
  · rw [if_pos e1] at hab
    by_cases e2 : b.1 = c.1
    · rw [if_pos e2] at hbc
      rw [if_pos (e1.trans e2)]
      by_cases f1 : a.2.1 = b.2.1
      · rw [if_pos f1] at hab
        by_cases f2 : b.2.1 = c.2.1
        · rw [if_pos f2] at hbc
          rw [if_pos (f1.trans f2)]
          have hab2 : lexLtB b.2.2 a.2.2 = false := by
            cases hg : lexLtB b.2.2 a.2.2
            · rfl
            · rw [hg] at hab
              cases hab
          have hbc2 : lexLtB c.2.2 b.2.2 = false := by
            cases hg : lexLtB c.2.2 b.2.2
            · rfl
            · rw [hg] at hbc
              cases hbc
          rw [lexNLt_trans _ _ _ hab2 hbc2]
          rfl
        · rw [if_neg f2] at hbc
          rw [if_neg (fun h => f2 (f1.symm.trans h)), f1]
          exact hbc
      · rw [if_neg f1] at hab
        by_cases f2 : b.2.1 = c.2.1
        · rw [if_neg (fun h => f1 (h.trans f2.symm)), ← f2]
          exact hab
        · rw [if_neg f2] at hbc
          have := lexLtB_trans _ _ _ hab hbc
          rw [if_neg (lexLtB_ne _ _ this)]
          exact this
    · rw [if_neg e2] at hbc
      rw [if_neg (fun h => e2 (e1.symm.trans h)), e1]
      exact hbc
  · rw [if_neg e1] at hab
    by_cases e2 : b.1 = c.1
    · rw [if_neg (fun h => e1 (h.trans e2.symm)), ← e2]
      exact hab
    · rw [if_neg e2] at hbc
      have := lexLtB_trans _ _ _ hab hbc
      rw [if_neg (lexLtB_ne _ _ this)]
      exact this⟩

instance : IsAntisymm TEntry entryLe := ⟨by
  rintro ⟨a1, a2, a3⟩ ⟨b1, b2, b3⟩ hab hba
  unfold entryLe entryLeB at hab hba
  simp only at hab hba
  by_cases e1 : a1 = b1
  · rw [if_pos e1] at hab
    rw [if_pos e1.symm] at hba
    by_cases f1 : a2 = b2
    · rw [if_pos f1] at hab
      rw [if_pos f1.symm] at hba
      have hab2 : lexLtB b3 a3 = false := by
        cases hg : lexLtB b3 a3
        · rfl
        · rw [hg] at hab
          cases hab
      have hba2 : lexLtB a3 b3 = false := by
        cases hg : lexLtB a3 b3
        · rfl
        · rw [hg] at hba
          cases hba
      have e3 : a3 = b3 := lexLtB_eq_of_not a3 b3 hba2 hab2
      rw [e1, f1, e3]
    · rw [if_neg f1] at hab
      rw [if_neg (fun h => f1 h.symm)] at hba
      rw [lexLtB_asymm _ _ hab] at hba
      cases hba
  · rw [if_neg e1] at hab
    rw [if_neg (fun h => e1 h.symm)] at hba
    rw [lexLtB_asymm _ _ hab] at hba
    cases hba⟩

/-- Ordering of directory children by name, used for the canonical form
of a snapshot. -/
def nameLe (a b : Bytes × Fsnode) : Prop := lexLtB b.1 a.1 = false

instance : DecidableRel nameLe := fun a b =>
  instDecidableEqBool (lexLtB b.1 a.1) false

instance : IsTotal (Bytes × Fsnode) nameLe := ⟨by
  intro a b
  unfold nameLe
  cases h : lexLtB b.1 a.1
  · exact Or.inl rfl
  · exact Or.inr (lexLtB_asymm _ _ h)⟩

instance : IsTrans (Bytes × Fsnode) nameLe :=
  ⟨fun _ _ _ h1 h2 => lexNLt_trans _ _ _ h1 h2⟩

/-- `sorted(entries)` of write_tree. -/
def sortE (es : List TEntry) : List TEntry := List.insertionSort entryLe es

/-- Serialization `f"{type_} {oid} {name}\n"` joined over the sorted
entries. -/
def serializeEntries (es : List TEntry) : Bytes :=
  es.flatMap (fun e => e.2.2 ++ ' ' :: e.2.1 ++ ' ' :: e.1 ++ ['\n'])

/-- Python `str.splitlines()` for content whose only line break is
`'\n'`. -/
def splitLinesAux : List Char → List Char → List (List Char)
  | [], acc => if acc = [] then [] else [acc.reverse]
  | c :: cs, acc =>
    if c = '\n' then acc.reverse :: splitLinesAux cs []
    else splitLinesAux cs (c :: acc)

def splitLinesCL (l : Bytes) : List Bytes := splitLinesAux l []

/-- Python `str.split()` with no argument: split on runs of whitespace,
dropping empty chunks. -/
def splitWsAux : List Char → List Char → List (List Char)
  | [], acc => if acc = [] then [] else [acc.reverse]
  | c :: cs, acc =>
    if isWs c then
      if acc = [] then splitWsAux cs [] else acc.reverse :: splitWsAux cs []
    else splitWsAux cs (c :: acc)

def splitWsCL (l : Bytes) : List Bytes := splitWsAux l []

/-- The one directory name write_tree's is_ignored filter skips.  The
source tests `".doppelgit" in full_path.split("/")`; since the parent
components were already filtered at the enclosing level, this is a
per-name test in the recursion. -/
def ignoredName : Bytes := ".doppelgit".data

/-- base.write_tree, recursion over one directory's children: hashes each
file as a blob, recursively writes each subdirectory, accumulates
`(entry.name, oid, type_)` in enumeration order.  Returns the entries of
this directory plus the store extended with everything written. -/
def write_tree_list (H : Bytes → Bytes) (s : Store) (l : List (Bytes × Fsnode)) :
    List TEntry × Store :=
  match l with
  | [] => ([], s)
  | (name, Fsnode.file c) :: rest =>
    if name = ignoredName then write_tree_list H s rest
    else
      let r := hash_object H s c blobT
      let rr := write_tree_list H r.2 rest
      ((name, r.1, blobT) :: rr.1, rr.2)
  | (name, Fsnode.dir ccs) :: rest =>
    if name = ignoredName then write_tree_list H s rest
    else
      let sub := write_tree_list H s ccs
      let r := hash_object H sub.2 (serializeEntries (sortE sub.1)) treeT
      let rr := write_tree_list H r.2 rest
      ((name, r.1, treeT) :: rr.1, rr.2)
termination_by sizeOf l

/-- base.write_tree on a directory: write the children, then hash the
serialization of the sorted entries as a tree object. -/
def write_tree (H : Bytes → Bytes) (s : Store) (children : List (Bytes × Fsnode)) :
    Bytes × Store :=
  let es := write_tree_list H s children
  hash_object H es.2 (serializeEntries (sortE es.1)) treeT

/-- The entry list write_tree computes for a directory, as a pure
function of the snapshot (the store threading does not influence the
digests). -/
def entriesOf (H : Bytes → Bytes) (l : List (Bytes × Fsnode)) : List TEntry :=
  match l with
  | [] => []
  | (name, Fsnode.file c) :: rest =>
    if name = ignoredName then entriesOf H rest
    else (name, H (blobT ++ nulC :: c), blobT) :: entriesOf H rest
  | (name, Fsnode.dir ccs) :: rest =>
    if name = ignoredName then entriesOf H rest
    else (name, H (treeT ++ nulC :: serializeEntries (sortE (entriesOf H ccs))), treeT) ::
      entriesOf H rest
termination_by sizeOf l

/-- The tree digest write_tree assigns to a directory. -/
def treeOidD (H : Bytes → Bytes) (cs : List (Bytes × Fsnode)) : Bytes :=
  H (treeT ++ nulC :: serializeEntries (sortE (entriesOf H cs)))

/-- The stored tree object for a directory. -/
def treeObjD (H : Bytes → Bytes) (cs : List (Bytes × Fsnode)) : Bytes :=
  treeT ++ nulC :: serializeEntries (sortE (entriesOf H cs))

/-- The entry for one (non-ignored) child. -/
def entryOfOne (H : Bytes → Bytes) : Bytes × Fsnode → TEntry
  | (n, Fsnode.file c) => (n, H (blobT ++ nulC :: c), blobT)
  | (n, Fsnode.dir ccs) => (n, treeOidD H ccs, treeT)

/-- The `(oid, object)` pairs written while processing a child list, in
store order (the store is these pairs prepended to the incoming store). -/
def writtenList (H : Bytes → Bytes) (l : List (Bytes × Fsnode)) : Store :=
  match l with
  | [] => []
  | (name, Fsnode.file c) :: rest =>
    if name = ignoredName then writtenList H rest
    else writtenList H rest ++ [(H (blobT ++ nulC :: c), blobT ++ nulC :: c)]
  | (name, Fsnode.dir ccs) :: rest =>
    if name = ignoredName then writtenList H rest
    else writtenList H rest ++
      ((treeOidD H ccs, treeObjD H ccs) :: writtenList H ccs)
termination_by sizeOf l

/-- Everything write_tree writes for a whole directory, tree object on
top. -/
def writtenNode (H : Bytes → Bytes) (cs : List (Bytes × Fsnode)) : Store :=
  (treeOidD H cs, treeObjD H cs) :: writtenList H cs

/-- The objects one child contributes. -/
def writtenOne (H : Bytes → Bytes) : Bytes × Fsnode → Store
  | (_, Fsnode.file c) => [(H (blobT ++ nulC :: c), blobT ++ nulC :: c)]
  | (_, Fsnode.dir ccs) => writtenNode H ccs

/-- One line of a tree object, `entry_type, entry_oid, entry_name =
entry.split()`: exactly three whitespace-separated fields or a
ValueError (`none`). -/
def parseLine (line : Bytes) : Option (Bytes × Bytes × Bytes) :=
  match splitWsCL line with
  | [t, o, n] => some (t, o, n)
  | _ => none

def parseLines : List Bytes → Option (List (Bytes × Bytes × Bytes))
  | [] => some []
  | l :: rest =>
    match parseLine l, parseLines rest with
    | some e, some es => some (e :: es)
    | _, _ => none

/-- base.iterate_tree_entries: nothing for an empty oid, else reads the
tree object and parses each of its lines (`none` models the unpacking
ValueError, a missing object, or a type mismatch). -/
def iterate_tree_entries (s : Store) (oid : Bytes) : Option (List (Bytes × Bytes × Bytes)) :=
  if oid = [] then some []
  else
    match get_object s oid (some treeT) with
    | none => none
    | some content => parseLines (splitLinesCL content)

def dotName : Bytes := ".".data
def dotdotName : Bytes := "..".data

/-- `os.path.join(base_path, name)` for the shapes arising here (base is
empty or ends in a slash after the recursive call, names are relative). -/
def joinPath (base n : Bytes) : Bytes :=
  if base = [] then n
  else if base.getLast? = some '/' then base ++ n
  else base ++ '/' :: n

/-- The entry loop of get_tree; `rec` is get_tree one recursion level
down. -/
def getTreeGo (s : Store) (rec : Bytes → Bytes → Option (List (Bytes × Bytes)))
    (base : Bytes) :
    List (Bytes × Bytes × Bytes) → Option (List (Bytes × Bytes))
  | [] => some []
  | (ty, oid, name) :: rest =>
    if '/' ∈ name then none
    else if name = dotdotName ∨ name = dotName then none
    else if ty = blobT then
      match getTreeGo s rec base rest with
      | none => none
      | some tail => some ((joinPath base name, oid) :: tail)
    else if ty = treeT then
      match rec oid (joinPath base name ++ ['/']) with
      | none => none
      | some sub =>
        match getTreeGo s rec base rest with
        | none => none
        | some tail => some (sub ++ tail)
    else none

/-- base.get_tree: flattens a stored tree object into a path ↦ oid list,
asserting names contain no slash and are not `.`/`..`.  `fuel` bounds the
recursion depth only to make the embedding total. -/
def get_tree (s : Store) : Nat → Bytes → Bytes → Option (List (Bytes × Bytes))
  | 0 => fun _ _ => none
  | f + 1 => fun oid base =>
    match iterate_tree_entries s oid with
    | none => none
    | some entries => getTreeGo s (get_tree s f) base entries

/-- The canonical form of a directory snapshot: ignored entries dropped,
children sorted by name, subdirectories canonical.  Two snapshots with
identical (name, content) entry sets have the same canonical form
whatever order the filesystem enumerated them in. -/
def canonF (l : List (Bytes × Fsnode)) : List (Bytes × Fsnode) :=
  match l with
  | [] => []
  | (n, Fsnode.file c) :: rest =>
    if n = ignoredName then canonF rest
    else List.orderedInsert nameLe (n, Fsnode.file c) (canonF rest)
  | (n, Fsnode.dir ccs) :: rest =>
    if n = ignoredName then canonF rest
    else List.orderedInsert nameLe (n, Fsnode.dir (canonF ccs)) (canonF rest)
termination_by sizeOf l

/-- Canonicalization of one node. -/
def canonN : Fsnode → Fsnode
  | Fsnode.file c => Fsnode.file c
  | Fsnode.dir ccs => Fsnode.dir (canonF ccs)

/-- The ignored-children filter. -/
def filterIg (l : List (Bytes × Fsnode)) : List (Bytes × Fsnode) :=
  l.filter (fun p => ¬ p.1 = ignoredName)

/-- The snapshot's path ↦ blob-digest mapping in sorted traversal order,
over an already canonical child list. -/
def flattenC (H : Bytes → Bytes) (base : Bytes) (l : List (Bytes × Fsnode)) :
    List (Bytes × Bytes) :=
  match l with
  | [] => []
  | (n, Fsnode.file c) :: rest =>
    (joinPath base n, H (blobT ++ nulC :: c)) :: flattenC H base rest
  | (n, Fsnode.dir ccs) :: rest =>
    flattenC H (joinPath base n ++ ['/']) ccs ++ flattenC H base rest
termination_by sizeOf l

/-- Nesting depth of a child list (0 when no subdirectories). -/
def heightL (l : List (Bytes × Fsnode)) : Nat :=
  match l with
  | [] => 0
  | (_, Fsnode.file _) :: rest => heightL rest
  | (_, Fsnode.dir ccs) :: rest => max (heightL ccs + 1) (heightL rest)
termination_by sizeOf l

/-- Depth contributed by a single child. -/
def heightOne : Bytes × Fsnode → Nat
  | (_, Fsnode.file _) => 0
  | (_, Fsnode.dir ccs) => heightL ccs + 1

/-- Depth-budget check, structurally recursive on the budget: `fits fuel
l` says every chain of nested subdirectories in `l` is shorter than
`fuel`.  The fuelled mirrors below recurse on the same budget, so they
evaluate by plain iota reduction, which keeps witness checking cheap. -/
def fitsGo (rec : List (Bytes × Fsnode) → Bool) : List (Bytes × Fsnode) → Bool
  | [] => true
  | (_, Fsnode.file _) :: rest => fitsGo rec rest
  | (_, Fsnode.dir ccs) :: rest => rec ccs && fitsGo rec rest

def fits : Nat → List (Bytes × Fsnode) → Bool
  | 0 => fun _ => false
  | f + 1 => fun l => fitsGo (fits f) l

/-- Fuelled mirror of canonF. -/
def canonGo (rec : List (Bytes × Fsnode) → List (Bytes × Fsnode)) :
    List (Bytes × Fsnode) → List (Bytes × Fsnode)
  | [] => []
  | (n, Fsnode.file c) :: rest =>
    if n = ignoredName then canonGo rec rest
    else List.orderedInsert nameLe (n, Fsnode.file c) (canonGo rec rest)
  | (n, Fsnode.dir ccs) :: rest =>
    if n = ignoredName then canonGo rec rest
    else List.orderedInsert nameLe (n, Fsnode.dir (rec ccs)) (canonGo rec rest)

def canonFF : Nat → List (Bytes × Fsnode) → List (Bytes × Fsnode)
  | 0 => fun _ => []
  | f + 1 => fun l => canonGo (canonFF f) l

/-- Fuelled mirror of write_tree_list. -/
def wtGo (H : Bytes → Bytes)
    (rec : Store → List (Bytes × Fsnode) → List TEntry × Store) :
    Store → List (Bytes × Fsnode) → List TEntry × Store
  | s, [] => ([], s)
  | s, (name, Fsnode.file c) :: rest =>
    if name = ignoredName then wtGo H rec s rest
    else
      let r := hash_object H s c blobT
      let rr := wtGo H rec r.2 rest
      ((name, r.1, blobT) :: rr.1, rr.2)
  | s, (name, Fsnode.dir ccs) :: rest =>
    if name = ignoredName then wtGo H rec s rest
    else
      let sub := rec s ccs
      let r := hash_object H sub.2 (serializeEntries (sortE sub.1)) treeT
      let rr := wtGo H rec r.2 rest
      ((name, r.1, treeT) :: rr.1, rr.2)

def write_tree_listF (H : Bytes → Bytes) :
    Nat → Store → List (Bytes × Fsnode) → List TEntry × Store
  | 0 => fun s _ => ([], s)
  | f + 1 => fun s l => wtGo H (write_tree_listF H f) s l

/-- Fuelled mirror of write_tree. -/
def write_treeF (H : Bytes → Bytes) (fuel : Nat) (s : Store)
    (children : List (Bytes × Fsnode)) : Bytes × Store :=
  let es := write_tree_listF H fuel s children
  hash_object H es.2 (serializeEntries (sortE es.1)) treeT

unseal write_tree_list entriesOf writtenList canonF heightL flattenC

/-- A name write_tree can round trip: nonempty, free of whitespace (the
parser splits lines on arbitrary whitespace) and of slashes, and not the
special names `.` and `..` that get_tree rejects. -/
def validName (n : Bytes) : Prop :=
  n ≠ [] ∧ (∀ c ∈ n, ¬ (isWs c = true) ∧ c ≠ '/') ∧ n ≠ dotName ∧ n ≠ dotdotName

instance (n : Bytes) : Decidable (validName n) := by
  unfold validName; infer_instance

/-- Validity of a whole snapshot: every name valid and unique among its
siblings, recursively. -/
def validL (l : List (Bytes × Fsnode)) : Prop :=
  match l with
  | [] => True
  | (n, Fsnode.file _) :: rest =>
    validName n ∧ n ∉ rest.map (·.1) ∧ validL rest
  | (n, Fsnode.dir ccs) :: rest =>
    validName n ∧ n ∉ rest.map (·.1) ∧ validL ccs ∧ validL rest
termination_by sizeOf l

def validLDec : (l : List (Bytes × Fsnode)) → Decidable (validL l)
  | [] => decidable_of_iff True (by rw [validL])
  | (n, Fsnode.file c) :: rest =>
    have : Decidable (validL rest) := validLDec rest
    decidable_of_iff (validName n ∧ n ∉ rest.map (·.1) ∧ validL rest)
      (by rw [validL])
  | (n, Fsnode.dir ccs) :: rest =>
    have : Decidable (validL ccs) := validLDec ccs
    have : Decidable (validL rest) := validLDec rest
    decidable_of_iff (validName n ∧ n ∉ rest.map (·.1) ∧ validL ccs ∧ validL rest)
      (by rw [validL])
termination_by l => sizeOf l

unseal validL validLDec

instance (l : List (Bytes × Fsnode)) : Decidable (validL l) := validLDec l

/-- Fuelled Bool mirror of validL. -/
def vGo (rec : List (Bytes × Fsnode) → Bool) : List (Bytes × Fsnode) → Bool
  | [] => true
  | (n, Fsnode.file _) :: rest =>
    decide (validName n) && !(decide (n ∈ rest.map (·.1))) && vGo rec rest
  | (n, Fsnode.dir ccs) :: rest =>
    decide (validName n) && !(decide (n ∈ rest.map (·.1))) && rec ccs && vGo rec rest

def validLF : Nat → List (Bytes × Fsnode) → Bool
  | 0 => fun _ => false
  | f + 1 => fun l => vGo (validLF f) l

theorem fits_cons_file (f : Nat) (n c : Bytes) (rest : List (Bytes × Fsnode)) :
    fits (f + 1) ((n, Fsnode.file c) :: rest) = fits (f + 1) rest := rfl

theorem fits_cons_dir (f : Nat) (n : Bytes) (ccs rest : List (Bytes × Fsnode)) :
    fits (f + 1) ((n, Fsnode.dir ccs) :: rest) =
      (fits f ccs && fits (f + 1) rest) := rfl

theorem canonF_eq : ∀ l f, fits f l = true → canonF l = canonFF f l := by
  intro l
  induction l using fsInd with
  | hnil =>
    intro f hf
    cases f with
    | zero => cases hf
    | succ f => rfl
  | hfile n c rest ih =>
    intro f hf
    cases f with
    | zero => cases hf
    | succ f =>
      have hrest := ih (f + 1) (by rw [← fits_cons_file f n c rest]; exact hf)
      by_cases hig : n = ignoredName
      · rw [show canonF ((n, Fsnode.file c) :: rest) = canonF rest by
          rw [canonF]; simp [hig]]
        rw [hrest]
        show canonFF (f + 1) rest = canonGo (canonFF f) ((n, Fsnode.file c) :: rest)
        rw [canonGo, if_pos hig]
        rfl
      · rw [show canonF ((n, Fsnode.file c) :: rest) =
            List.orderedInsert nameLe (n, Fsnode.file c) (canonF rest) by
          rw [canonF]; simp [hig]]
        rw [hrest]
        show _ = canonGo (canonFF f) ((n, Fsnode.file c) :: rest)
        rw [canonGo, if_neg hig]
        rfl
  | hdir n ccs rest ih1 ih2 =>
    intro f hf
    cases f with
    | zero => cases hf
    | succ f =>
      rw [fits_cons_dir, Bool.and_eq_true] at hf
      obtain ⟨hc, hr⟩ := hf
      have hccs := ih1 f hc
      have hrest := ih2 (f + 1) hr
      by_cases hig : n = ignoredName
      · rw [show canonF ((n, Fsnode.dir ccs) :: rest) = canonF rest by
          rw [canonF]; simp [hig]]
        rw [hrest]
        show canonFF (f + 1) rest = canonGo (canonFF f) ((n, Fsnode.dir ccs) :: rest)
        rw [canonGo, if_pos hig]
        rfl
      · rw [show canonF ((n, Fsnode.dir ccs) :: rest) =
            List.orderedInsert nameLe (n, Fsnode.dir (canonF ccs)) (canonF rest) by
          rw [canonF]; simp [hig]]
        rw [hrest, hccs]
        show _ = canonGo (canonFF f) ((n, Fsnode.dir ccs) :: rest)
        rw [canonGo, if_neg hig]
        rfl

theorem write_tree_listF_eq (H : Bytes → Bytes) :
    ∀ l f s, fits f l = true → write_tree_list H s l = write_tree_listF H f s l := by
  intro l
  induction l using fsInd with
  | hnil =>
    intro f s hf
    cases f with
    | zero => cases hf
    | succ f => rfl
  | hfile n c rest ih =>
    intro f s hf
    cases f with
    | zero => cases hf
    | succ f =>
      have hrest := fun s2 => ih (f + 1) s2 (by rw [← fits_cons_file f n c rest]; exact hf)
      show write_tree_list H s ((n, Fsnode.file c) :: rest) =
        wtGo H (write_tree_listF H f) s ((n, Fsnode.file c) :: rest)
      rw [write_tree_list, wtGo]
      by_cases hig : n = ignoredName
      · rw [if_pos hig, if_pos hig]
        exact hrest s
      · rw [if_neg hig, if_neg hig]
        simp only [hrest]
        try rfl
  | hdir n ccs rest ih1 ih2 =>
    intro f s hf
    cases f with
    | zero => cases hf
    | succ f =>
      rw [fits_cons_dir, Bool.and_eq_true] at hf
      obtain ⟨hc, hr⟩ := hf
      have hccs := fun s2 => ih1 f s2 hc
      have hrest := fun s2 => ih2 (f + 1) s2 hr
      show write_tree_list H s ((n, Fsnode.dir ccs) :: rest) =
        wtGo H (write_tree_listF H f) s ((n, Fsnode.dir ccs) :: rest)
      rw [write_tree_list, wtGo]
      by_cases hig : n = ignoredName
      · rw [if_pos hig, if_pos hig]
        exact hrest s
      · rw [if_neg hig, if_neg hig]
        simp only [hccs, hrest]
        try rfl

theorem write_treeF_eq (H : Bytes → Bytes) (fuel : Nat) (s : Store)
    (cs : List (Bytes × Fsnode)) (h : fits fuel cs = true) :
    write_tree H s cs = write_treeF H fuel s cs := by
  unfold write_tree write_treeF
  rw [write_tree_listF_eq H cs fuel s h]

theorem validL_of_validLF : ∀ l f, validLF f l = true → validL l := by
  intro l
  induction l using fsInd with
  | hnil =>
    intro f _
    rw [validL]
    trivial
  | hfile n c rest ih =>
    intro f hf
    cases f with
    | zero => cases hf
    | succ f =>
      have hf2 : vGo (validLF f) ((n, Fsnode.file c) :: rest) = true := hf
      rw [vGo] at hf2
      simp only [Bool.and_eq_true] at hf2
      obtain ⟨⟨h1, h2⟩, h3⟩ := hf2
      rw [validL]
      exact ⟨of_decide_eq_true h1, by simpa using h2, ih (f + 1) (by exact h3)⟩
  | hdir n ccs rest ih1 ih2 =>
    intro f hf
    cases f with
    | zero => cases hf
    | succ f =>
      have hf2 : vGo (validLF f) ((n, Fsnode.dir ccs) :: rest) = true := hf
      rw [vGo] at hf2
      simp only [Bool.and_eq_true] at hf2
      obtain ⟨⟨⟨h1, h2⟩, h3⟩, h4⟩ := hf2
      rw [validL]
      exact ⟨of_decide_eq_true h1, by simpa using h2, ih1 f h3, ih2 (f + 1) (by exact h4)⟩

/-- A canonical, valid snapshot as the roundtrip proof consumes it: every
name valid, not ignored, strictly below all later sibling names (so the
list is sorted and sibling names are distinct), and subdirectories
canonical too. -/
def goodC (l : List (Bytes × Fsnode)) : Prop :=
  match l with
  | [] => True
  | (n, Fsnode.file _) :: rest =>
    validName n ∧ n ≠ ignoredName ∧ (∀ p ∈ rest, lexLtB n p.1 = true) ∧ goodC rest
  | (n, Fsnode.dir ccs) :: rest =>
    validName n ∧ n ≠ ignoredName ∧ (∀ p ∈ rest, lexLtB n p.1 = true) ∧ goodC ccs ∧ goodC rest
termination_by sizeOf l

unseal goodC

/-- All digests that can appear in stored tree objects parse back as one
token: nonempty and whitespace-free. -/
def wsFreeOids (s : Store) : Prop :=
  ∀ p ∈ s, p.1 ≠ [] ∧ ∀ c ∈ p.1, ¬ (isWs c = true)

instance (s : Store) : Decidable (wsFreeOids s) := by
  unfold wsFreeOids; infer_instance

/-- The digest function had no collision among the objects of the store:
a digest determines the stored content. -/
def functionalStore (s : Store) : Prop :=
  ∀ p ∈ s, ∀ q ∈ s, p.1 = q.1 → p.2 = q.2

instance (s : Store) : Decidable (functionalStore s) := by
  unfold functionalStore; infer_instance

theorem lookupA_mem {α : Type} (s : List (Bytes × α)) (k : Bytes) (v : α)
    (h : lookupA s k = some v) : (k, v) ∈ s := by
  induction s with
  | nil => simp [lookupA] at h
  | cons p rest ih =>
    obtain ⟨k', v'⟩ := p
    by_cases hk : k' = k
    · subst hk
      rw [lookupA, if_pos rfl] at h
      exact (Option.some.injEq _ _ ▸ h) ▸ List.mem_cons_self _ _
    · rw [lookupA, if_neg hk] at h
      exact List.mem_cons_of_mem _ (ih h)

theorem lookupA_isSome_of_mem {α : Type} (s : List (Bytes × α)) (k : Bytes) (v : α)
    (h : (k, v) ∈ s) : (lookupA s k).isSome := by
  induction s with
  | nil => simp at h
  | cons p rest ih =>
    obtain ⟨k', v'⟩ := p
    rcases List.mem_cons.mp h with h1 | h1
    · obtain ⟨e1, _⟩ := Prod.mk.injEq .. ▸ h1
      rw [lookupA, if_pos (congrArg Prod.fst h1.symm)]
      rfl
    · by_cases hk : k' = k
      · rw [lookupA, if_pos hk]; rfl
      · rw [lookupA, if_neg hk]; exact ih h1

theorem lookupA_functional (s : Store) (k v : Bytes)
    (hfun : functionalStore s) (h : (k, v) ∈ s) : lookupA s k = some v := by
  have hsome := lookupA_isSome_of_mem s k v h
  cases hl : lookupA s k with
  | none => rw [hl] at hsome; simp at hsome
  | some w =>
    have hw := lookupA_mem s k w hl
    exact congrArg some (hfun (k, w) hw (k, v) h rfl)

/-! ## write_tree produces the pure entries and only grows the store -/

theorem write_tree_list_eq (H : Bytes → Bytes) :
    ∀ l s, write_tree_list H s l = (entriesOf H l, writtenList H l ++ s) := by
  intro l
  induction l using fsInd with
  | hnil => intro s; simp [write_tree_list, entriesOf, writtenList]
  | hfile n c rest ih =>
    intro s
    by_cases hig : n = ignoredName
    · simp [write_tree_list, entriesOf, writtenList, hig, ih]
    · simp [write_tree_list, entriesOf, writtenList, hig, hash_object, ih]
  | hdir n ccs rest ih1 ih2 =>
    intro s
    by_cases hig : n = ignoredName
    · simp [write_tree_list, entriesOf, writtenList, hig, ih2]
    · simp [write_tree_list, entriesOf, writtenList, hig, hash_object, ih1, ih2,
        treeOidD, treeObjD]

theorem write_tree_fst (H : Bytes → Bytes) (s : Store) (cs : List (Bytes × Fsnode)) :
    write_tree H s cs = (treeOidD H cs, writtenNode H cs ++ s) := by
  simp [write_tree, write_tree_list_eq, hash_object, treeOidD, treeObjD, writtenNode]

/-! ## Parsing a serialized tree recovers the entries -/

/-- One serialized entry line, without its newline. -/
def lineOf (e : TEntry) : Bytes := e.2.2 ++ ' ' :: (e.2.1 ++ ' ' :: e.1)

/-- The parsed `(type, oid, name)` view of an entry. -/
def swapE (e : TEntry) : Bytes × Bytes × Bytes := (e.2.2, e.2.1, e.1)

/-- A token-valid entry: each component nonempty and whitespace-free. -/
def entryValid (e : TEntry) : Prop :=
  (e.1 ≠ [] ∧ ∀ c ∈ e.1, ¬ (isWs c = true)) ∧
  (e.2.1 ≠ [] ∧ ∀ c ∈ e.2.1, ¬ (isWs c = true)) ∧
  (e.2.2 ≠ [] ∧ ∀ c ∈ e.2.2, ¬ (isWs c = true))

theorem splitWsAux_token (t : Bytes) (hws : ∀ c ∈ t, ¬ (isWs c = true)) :
    ∀ rest acc, splitWsAux (t ++ rest) acc = splitWsAux rest (t.reverse ++ acc) := by
  induction t with
  | nil => intro rest acc; simp
  | cons c cs ih =>
    intro rest acc
    have hc : ¬ (isWs c = true) := hws c (List.mem_cons_self c cs)
    have hcs : ∀ x ∈ cs, ¬ (isWs x = true) := fun x hx => hws x (List.mem_cons_of_mem c hx)
    rw [List.cons_append, splitWsAux, if_neg hc, ih hcs rest (c :: acc)]
    simp

theorem splitWsAux_end (t : Bytes) (hne : t ≠ []) :
    splitWsAux [] t.reverse = [t] := by
  rw [splitWsAux]
  simp [hne]

theorem splitWsAux_tok_sp (t : Bytes) (ht : t ≠ [])
    (hws : ∀ c ∈ t, ¬ (isWs c = true)) (rest : Bytes) :
    splitWsAux (t ++ ' ' :: rest) [] = t :: splitWsAux rest [] := by
  have hsp : isWs ' ' = true := by decide
  have h1 := splitWsAux_token t hws (' ' :: rest) []
  rw [List.append_nil] at h1
  rw [h1, splitWsAux, if_pos hsp, if_neg (by simpa using ht)]
  simp

theorem splitWsAux_tok_end (t : Bytes) (ht : t ≠ [])
    (hws : ∀ c ∈ t, ¬ (isWs c = true)) :
    splitWsAux t [] = [t] := by
  have h1 := splitWsAux_token t hws [] []
  rw [List.append_nil, List.append_nil] at h1
  rw [h1, splitWsAux_end t ht]

theorem splitWs_three (t o n : Bytes)
    (ht : t ≠ []) (htws : ∀ c ∈ t, ¬ (isWs c = true))
    (ho : o ≠ []) (hows : ∀ c ∈ o, ¬ (isWs c = true))
    (hn : n ≠ []) (hnws : ∀ c ∈ n, ¬ (isWs c = true)) :
    splitWsCL (t ++ ' ' :: (o ++ ' ' :: n)) = [t, o, n] := by
  rw [splitWsCL, splitWsAux_tok_sp t ht htws (o ++ ' ' :: n),
    splitWsAux_tok_sp o ho hows n, splitWsAux_tok_end n hn hnws]

theorem splitLinesAux_line (l : Bytes) (hnl : '\n' ∉ l) :
    ∀ rest acc, splitLinesAux (l ++ '\n' :: rest) acc =
      (acc.reverse ++ l) :: splitLinesAux rest [] := by
  induction l with
  | nil =>
    intro rest acc
    rw [List.nil_append, splitLinesAux, if_pos rfl]
    simp
  | cons c cs ih =>
    intro rest acc
    have hc : ¬ (c = '\n') := fun hh => hnl (hh ▸ List.mem_cons_self c cs)
    have hcs : '\n' ∉ cs := fun hh => hnl (List.mem_cons_of_mem c hh)
    rw [List.cons_append, splitLinesAux, if_neg hc, ih hcs rest (c :: acc)]
    simp

theorem lineOf_no_newline (e : TEntry) (he : entryValid e) : '\n' ∉ lineOf e := by
  obtain ⟨⟨_, h1⟩, ⟨_, h2⟩, ⟨_, h3⟩⟩ := he
  intro hmem
  simp only [lineOf] at hmem
  rcases List.mem_append.mp hmem with h | h
  · exact h3 '\n' h (by decide)
  · rcases List.mem_cons.mp h with h | h
    · exact absurd h (by decide)
    · rcases List.mem_append.mp h with h | h
      · exact h2 '\n' h (by decide)
      · rcases List.mem_cons.mp h with h | h
        · exact absurd h (by decide)
        · exact h1 '\n' h (by decide)

theorem splitLines_serialize :
    ∀ es : List TEntry, (∀ e ∈ es, entryValid e) →
      splitLinesCL (serializeEntries es) = es.map lineOf := by
  intro es
  induction es with
  | nil => intro _; rfl
  | cons e rest ih =>
    intro hv
    have he := hv e (List.mem_cons_self e rest)
    have hrest := fun x hx => hv x (List.mem_cons_of_mem e hx)
    have hshape : serializeEntries (e :: rest) =
        lineOf e ++ '\n' :: serializeEntries rest := by
      simp [serializeEntries, lineOf]
    rw [splitLinesCL, hshape, splitLinesAux_line (lineOf e) (lineOf_no_newline e he)]
    rw [List.map_cons, ← splitLinesCL, ih hrest]
    simp

theorem parseLine_lineOf (e : TEntry) (he : entryValid e) :
    parseLine (lineOf e) = some (swapE e) := by
  obtain ⟨⟨h1, h1w⟩, ⟨h2, h2w⟩, ⟨h3, h3w⟩⟩ := he
  rw [parseLine, lineOf]
  rw [splitWs_three e.2.2 e.2.1 e.1 h3 h3w h2 h2w h1 h1w]
  rfl

theorem parseLines_serialize (es : List TEntry) (hv : ∀ e ∈ es, entryValid e) :
    parseLines (splitLinesCL (serializeEntries es)) = some (es.map swapE) := by
  rw [splitLines_serialize es hv]
  induction es with
  | nil => rfl
  | cons e rest ih =>
    have he := hv e (List.mem_cons_self e rest)
    have hrest := fun x hx => hv x (List.mem_cons_of_mem e hx)
    rw [List.map_cons, parseLines, parseLine_lineOf e he, ih hrest, List.map_cons]

/-! ## Sorting and the canonical snapshot -/

theorem sortE_sorted (es : List TEntry) : List.Sorted entryLe (sortE es) :=
  List.sorted_insertionSort entryLe es

theorem sortE_perm (es : List TEntry) : (sortE es).Perm es :=
  List.perm_insertionSort entryLe es

theorem sortE_congr (es₁ es₂ : List TEntry) (h : es₁.Perm es₂) :
    sortE es₁ = sortE es₂ :=
  List.eq_of_perm_of_sorted ((sortE_perm es₁).trans (h.trans (sortE_perm es₂).symm))
    (sortE_sorted es₁) (sortE_sorted es₂)

/-- Canonicalization of one child pair. -/
def canonP (p : Bytes × Fsnode) : Bytes × Fsnode := (p.1, canonN p.2)

theorem filterIg_cons_pos (n : Bytes) (node : Fsnode) (rest : List (Bytes × Fsnode))
    (hig : ¬ n = ignoredName) :
    filterIg ((n, node) :: rest) = (n, node) :: filterIg rest := by
  simp [filterIg, List.filter_cons, hig]

theorem filterIg_cons_neg (n : Bytes) (node : Fsnode) (rest : List (Bytes × Fsnode))
    (hig : n = ignoredName) :
    filterIg ((n, node) :: rest) = filterIg rest := by
  simp [filterIg, List.filter_cons, hig]

theorem entriesOf_eq_map (H : Bytes → Bytes) :
    ∀ l, entriesOf H l = (filterIg l).map (entryOfOne H) := by
  intro l
  induction l with
  | nil => rfl
  | cons p rest ih =>
    obtain ⟨n, node⟩ := p
    cases node with
    | file c =>
      by_cases hig : n = ignoredName
      · rw [filterIg_cons_neg n _ rest hig, ← ih]
        simp [entriesOf, hig]
      · rw [filterIg_cons_pos n _ rest hig, List.map_cons, ← ih]
        simp [entriesOf, hig, entryOfOne]
    | dir ccs =>
      by_cases hig : n = ignoredName
      · rw [filterIg_cons_neg n _ rest hig, ← ih]
        simp [entriesOf, hig]
      · rw [filterIg_cons_pos n _ rest hig, List.map_cons, ← ih]
        simp [entriesOf, hig, entryOfOne, treeOidD]

theorem canonF_perm : ∀ l, (canonF l).Perm ((filterIg l).map canonP) := by
  intro l
  induction l with
  | nil => exact List.Perm.refl _
  | cons p rest ih =>
    obtain ⟨n, node⟩ := p
    cases node with
    | file c =>
      by_cases hig : n = ignoredName
      · simpa [canonF, filterIg, List.filter_cons, hig] using ih
      · rw [show canonF ((n, Fsnode.file c) :: rest) =
            List.orderedInsert nameLe (n, Fsnode.file c) (canonF rest) by
          rw [canonF]; simp [hig]]
        refine (List.perm_orderedInsert nameLe _ _).trans ?_
        have : (filterIg ((n, Fsnode.file c) :: rest)).map canonP =
            (n, Fsnode.file c) :: (filterIg rest).map canonP := by
          simp [filterIg, List.filter_cons, hig, canonP, canonN]
        rw [this]
        exact ih.cons _
    | dir ccs =>
      by_cases hig : n = ignoredName
      · simpa [canonF, filterIg, List.filter_cons, hig] using ih
      · rw [show canonF ((n, Fsnode.dir ccs) :: rest) =
            List.orderedInsert nameLe (n, Fsnode.dir (canonF ccs)) (canonF rest) by
          rw [canonF]; simp [hig]]
        refine (List.perm_orderedInsert nameLe _ _).trans ?_
        have : (filterIg ((n, Fsnode.dir ccs) :: rest)).map canonP =
            (n, Fsnode.dir (canonF ccs)) :: (filterIg rest).map canonP := by
          simp [filterIg, List.filter_cons, hig, canonP, canonN]
        rw [this]
        exact ih.cons _

theorem mem_canonF (l : List (Bytes × Fsnode)) (y : Bytes × Fsnode) :
    y ∈ canonF l ↔ y ∈ (filterIg l).map canonP :=
  (canonF_perm l).mem_iff

theorem canonF_no_ig (l : List (Bytes × Fsnode)) (y : Bytes × Fsnode)
    (hy : y ∈ canonF l) : y.1 ≠ ignoredName := by
  rw [mem_canonF] at hy
  obtain ⟨x, hx, hxy⟩ := List.mem_map.mp hy
  have hx1 : ¬ (x.1 = ignoredName) := by
    have := List.mem_filter.mp hx
    simpa using this.2
  rw [← hxy]
  exact hx1

theorem filterIg_canonF (l : List (Bytes × Fsnode)) :
    filterIg (canonF l) = canonF l := by
  rw [filterIg, List.filter_eq_self]
  intro y hy
  simpa using canonF_no_ig l y hy

theorem canon_pointwise (H : Bytes → Bytes) :
    ∀ l, ((filterIg l).map canonP).map (entryOfOne H) =
      (filterIg l).map (entryOfOne H) := by
  intro l
  induction l using fsInd with
  | hnil => rfl
  | hfile n c rest ih =>
    by_cases hig : n = ignoredName
    · rw [filterIg_cons_neg n _ rest hig]
      exact ih
    · rw [filterIg_cons_pos n _ rest hig, List.map_cons, List.map_cons, List.map_cons, ih]
      rfl
  | hdir n ccs rest ih1 ih2 =>
    by_cases hig : n = ignoredName
    · rw [filterIg_cons_neg n _ rest hig]
      exact ih2
    · have hccs : (entriesOf H (canonF ccs)).Perm (entriesOf H ccs) := by
        rw [entriesOf_eq_map, entriesOf_eq_map, filterIg_canonF]
        have h1 := (canonF_perm ccs).map (entryOfOne H)
        rw [ih1] at h1
        exact h1
      have hoid : treeOidD H (canonF ccs) = treeOidD H ccs := by
        unfold treeOidD
        rw [sortE_congr _ _ hccs]
      rw [filterIg_cons_pos n _ rest hig, List.map_cons, List.map_cons, List.map_cons, ih2]
      have hhd : entryOfOne H (canonP (n, Fsnode.dir ccs)) =
          (n, treeOidD H (canonF ccs), treeT) := rfl
      rw [hhd, hoid]
      rfl

theorem entriesOf_canon_perm (H : Bytes → Bytes) (cs : List (Bytes × Fsnode)) :
    (entriesOf H (canonF cs)).Perm (entriesOf H cs) := by
  rw [entriesOf_eq_map, entriesOf_eq_map, filterIg_canonF]
  have h1 := (canonF_perm cs).map (entryOfOne H)
  rw [canon_pointwise H cs] at h1
  exact h1

theorem treeOid_canon (H : Bytes → Bytes) (cs : List (Bytes × Fsnode)) :
    treeOidD H (canonF cs) = treeOidD H cs := by
  unfold treeOidD
  rw [sortE_congr _ _ (entriesOf_canon_perm H cs)]

/-! ## Height, goodC and written-object lemmas for the roundtrip -/

theorem heightL_cons (x : Bytes × Fsnode) (l : List (Bytes × Fsnode)) :
    heightL (x :: l) = max (heightOne x) (heightL l) := by
  obtain ⟨n, node⟩ := x
  cases node with
  | file c => simp [heightL, heightOne]
  | dir ccs => simp [heightL, heightOne]

theorem heightOne_le_heightL (x : Bytes × Fsnode) (l : List (Bytes × Fsnode))
    (hx : x ∈ l) : heightOne x ≤ heightL l := by
  induction l with
  | nil => simp at hx
  | cons y l ih =>
    rw [heightL_cons]
    rcases List.mem_cons.mp hx with h | h
    · exact h ▸ le_max_left _ _
    · exact le_trans (ih h) (le_max_right _ _)

theorem heightL_lt_of_fits : ∀ l f, fits f l = true → heightL l < f := by
  intro l
  induction l using fsInd with
  | hnil =>
    intro f hf
    cases f with
    | zero => cases hf
    | succ f =>
      rw [show heightL [] = 0 from rfl]
      omega
  | hfile n c rest ih =>
    intro f hf
    cases f with
    | zero => cases hf
    | succ f =>
      rw [heightL_cons]
      have h1 := ih (f + 1) (by rw [← fits_cons_file f n c rest]; exact hf)
      have h0 : heightOne (n, Fsnode.file c) = 0 := rfl
      omega
  | hdir n ccs rest ih1 ih2 =>
    intro f hf
    cases f with
    | zero => cases hf
    | succ f =>
      rw [fits_cons_dir, Bool.and_eq_true] at hf
      obtain ⟨hc, hr⟩ := hf
      rw [heightL_cons]
      have h1 := ih1 f hc
      have h2 := ih2 (f + 1) hr
      have h0 : heightOne (n, Fsnode.dir ccs) = heightL ccs + 1 := rfl
      omega


theorem heightL_orderedInsert (y : Bytes × Fsnode) (l : List (Bytes × Fsnode)) :
    heightL (List.orderedInsert nameLe y l) = max (heightOne y) (heightL l) := by
  induction l with
  | nil => simp [List.orderedInsert, heightL_cons, heightL]
  | cons z l ih =>
    rw [List.orderedInsert]
    by_cases h : nameLe y z
    · rw [if_pos h, heightL_cons, heightL_cons]
    · rw [if_neg h, heightL_cons, ih, heightL_cons]
      omega

theorem heightL_canonF : ∀ l, heightL (canonF l) ≤ heightL l := by
  intro l
  induction l using fsInd with
  | hnil => simp [canonF, heightL]
  | hfile n c rest ih =>
    rw [heightL_cons]
    by_cases hig : n = ignoredName
    · rw [show canonF ((n, Fsnode.file c) :: rest) = canonF rest by rw [canonF]; simp [hig]]
      exact le_trans ih (le_max_right _ _)
    · rw [show canonF ((n, Fsnode.file c) :: rest) =
          List.orderedInsert nameLe (n, Fsnode.file c) (canonF rest) by
        rw [canonF]; simp [hig]]
      rw [heightL_orderedInsert]
      have : heightOne (n, Fsnode.file c) = 0 := rfl
      rw [this]
      have h0 : heightOne (n, Fsnode.file c) = 0 := rfl
      omega
  | hdir n ccs rest ih1 ih2 =>
    rw [heightL_cons]
    by_cases hig : n = ignoredName
    · rw [show canonF ((n, Fsnode.dir ccs) :: rest) = canonF rest by rw [canonF]; simp [hig]]
      exact le_trans ih2 (le_max_right _ _)
    · rw [show canonF ((n, Fsnode.dir ccs) :: rest) =
          List.orderedInsert nameLe (n, Fsnode.dir (canonF ccs)) (canonF rest) by
        rw [canonF]; simp [hig]]
      rw [heightL_orderedInsert]
      have h1 : heightOne (n, Fsnode.dir (canonF ccs)) = heightL (canonF ccs) + 1 := rfl
      have h2 : heightOne (n, Fsnode.dir ccs) = heightL ccs + 1 := rfl
      rw [h1, h2]
      omega

/-- Canonicity and validity of a single node. -/
def nodeGood : Fsnode → Prop
  | Fsnode.file _ => True
  | Fsnode.dir ccs => goodC ccs

theorem goodC_cons (n : Bytes) (node : Fsnode) (rest : List (Bytes × Fsnode)) :
    goodC ((n, node) :: rest) ↔
      validName n ∧ n ≠ ignoredName ∧ (∀ p ∈ rest, lexLtB n p.1 = true) ∧
      nodeGood node ∧ goodC rest := by
  cases node with
  | file c => rw [goodC]; simp [nodeGood]
  | dir ccs => rw [goodC]; simp [nodeGood]

theorem goodC_orderedInsert (n : Bytes) (node : Fsnode) :
    ∀ l, goodC l → validName n → n ≠ ignoredName → n ∉ l.map (·.1) →
      nodeGood node → goodC (List.orderedInsert nameLe (n, node) l) := by
  intro l
  induction l with
  | nil =>
    intro _ hv hig _ hnode
    simp only [List.orderedInsert]
    rw [goodC_cons]
    exact ⟨hv, hig, by simp, hnode, by rw [goodC]; try trivial⟩
  | cons y l ih =>
    intro hg hv hig hni hnode
    obtain ⟨hyv, hyig, hylt, hynode, hyrest⟩ := (goodC_cons y.1 y.2 l).mp (by
      obtain ⟨y1, y2⟩ := y; exact hg)
    rw [List.orderedInsert]
    by_cases h : nameLe (n, node) y
    · rw [if_pos h]
      rw [goodC_cons]
      refine ⟨hv, hig, ?_, hnode, by obtain ⟨y1, y2⟩ := y; exact hg⟩
      intro p hp
      have hne : n ≠ y.1 := fun he =>
        hni (by rw [List.map_cons]; exact List.mem_cons.mpr (Or.inl he))
      have hlt : lexLtB n y.1 = true := by
        have hfalse : lexLtB y.1 n = false := h
        rcases lexLtB_total n y.1 hne with hl | hl
        · exact hl
        · rw [hl] at hfalse
          cases hfalse
      rcases List.mem_cons.mp hp with h1 | h1
      · exact h1 ▸ hlt
      · exact lexLtB_trans _ _ _ hlt (hylt p h1)
    · rw [if_neg h]
      rw [goodC_cons]
      refine ⟨hyv, hyig, ?_, hynode, ?_⟩
      · intro p hp
        rcases (List.mem_orderedInsert nameLe).mp hp with h1 | h1
        · have : lexLtB y.1 n = true := by
            cases hc : lexLtB y.1 n
            · exact absurd hc h
            · rfl
          exact h1 ▸ this
        · exact hylt p h1
      · refine ih hyrest hv hig ?_ hnode
        intro hmem
        exact hni (by simp at hmem ⊢; exact Or.inr hmem)

theorem canonF_names (l : List (Bytes × Fsnode)) (y : Bytes × Fsnode)
    (hy : y ∈ canonF l) : y.1 ∈ l.map (·.1) := by
  rw [mem_canonF] at hy
  obtain ⟨x, hx, hxy⟩ := List.mem_map.mp hy
  have hxl : x ∈ l := List.mem_of_mem_filter hx
  rw [← hxy]
  exact List.mem_map.mpr ⟨x, hxl, rfl⟩

theorem goodC_canonF : ∀ l, validL l → goodC (canonF l) := by
  intro l
  induction l using fsInd with
  | hnil => intro _; rw [show canonF [] = [] from rfl, goodC]; trivial
  | hfile n c rest ih =>
    intro hv
    obtain ⟨hvn, hni, hvrest⟩ : validName n ∧ n ∉ rest.map (·.1) ∧ validL rest := by
      rw [validL] at hv; exact hv
    by_cases hig : n = ignoredName
    · rw [show canonF ((n, Fsnode.file c) :: rest) = canonF rest by rw [canonF]; simp [hig]]
      exact ih hvrest
    · rw [show canonF ((n, Fsnode.file c) :: rest) =
          List.orderedInsert nameLe (n, Fsnode.file c) (canonF rest) by
        rw [canonF]; simp [hig]]
      refine goodC_orderedInsert n _ (canonF rest) (ih hvrest) hvn hig ?_ trivial
      intro hmem
      obtain ⟨y, hy, hyn⟩ := List.mem_map.mp hmem
      exact hni (hyn ▸ canonF_names rest y hy)
  | hdir n ccs rest ih1 ih2 =>
    intro hv
    obtain ⟨hvn, hni, hvccs, hvrest⟩ :
        validName n ∧ n ∉ rest.map (·.1) ∧ validL ccs ∧ validL rest := by
      rw [validL] at hv; exact hv
    by_cases hig : n = ignoredName
    · rw [show canonF ((n, Fsnode.dir ccs) :: rest) = canonF rest by rw [canonF]; simp [hig]]
      exact ih2 hvrest
    · rw [show canonF ((n, Fsnode.dir ccs) :: rest) =
          List.orderedInsert nameLe (n, Fsnode.dir (canonF ccs)) (canonF rest) by
        rw [canonF]; simp [hig]]
      refine goodC_orderedInsert n _ (canonF rest) (ih2 hvrest) hvn hig ?_ (ih1 hvccs)
      intro hmem
      obtain ⟨y, hy, hyn⟩ := List.mem_map.mp hmem
      exact hni (hyn ▸ canonF_names rest y hy)

theorem treeObj_canon (H : Bytes → Bytes) (cs : List (Bytes × Fsnode)) :
    treeObjD H (canonF cs) = treeObjD H cs := by
  unfold treeObjD
  rw [sortE_congr _ _ (entriesOf_canon_perm H cs)]

theorem mem_writtenList (H : Bytes → Bytes) (p : Bytes × Bytes) :
    ∀ l, p ∈ writtenList H l ↔ ∃ x ∈ filterIg l, p ∈ writtenOne H x := by
  intro l
  induction l with
  | nil => simp [writtenList, filterIg]
  | cons y rest ih =>
    obtain ⟨n, node⟩ := y
    by_cases hig : n = ignoredName
    · rw [filterIg_cons_neg n _ rest hig]
      cases node with
      | file c =>
        rw [show writtenList H ((n, Fsnode.file c) :: rest) = writtenList H rest by
          rw [writtenList]; simp [hig]]
        exact ih
      | dir ccs =>
        rw [show writtenList H ((n, Fsnode.dir ccs) :: rest) = writtenList H rest by
          rw [writtenList]; simp [hig]]
        exact ih
    · rw [filterIg_cons_pos n _ rest hig]
      cases node with
      | file c =>
        rw [show writtenList H ((n, Fsnode.file c) :: rest) =
            writtenList H rest ++ writtenOne H (n, Fsnode.file c) by
          rw [writtenList]; simp [hig, writtenOne]]
        rw [List.mem_append, ih]
        constructor
        · rintro (⟨x, hx, hpx⟩ | hp)
          · exact ⟨x, List.mem_cons_of_mem _ hx, hpx⟩
          · exact ⟨(n, Fsnode.file c), List.mem_cons_self _ _, hp⟩
        · rintro ⟨x, hx, hpx⟩
          rcases List.mem_cons.mp hx with h | h
          · exact Or.inr (h ▸ hpx)
          · exact Or.inl ⟨x, h, hpx⟩
      | dir ccs =>
        rw [show writtenList H ((n, Fsnode.dir ccs) :: rest) =
            writtenList H rest ++ writtenOne H (n, Fsnode.dir ccs) by
          rw [writtenList]; simp [hig, writtenOne, writtenNode]]
        rw [List.mem_append, ih]
        constructor
        · rintro (⟨x, hx, hpx⟩ | hp)
          · exact ⟨x, List.mem_cons_of_mem _ hx, hpx⟩
          · exact ⟨(n, Fsnode.dir ccs), List.mem_cons_self _ _, hp⟩
        · rintro ⟨x, hx, hpx⟩
          rcases List.mem_cons.mp hx with h | h
          · exact Or.inr (h ▸ hpx)
          · exact Or.inl ⟨x, h, hpx⟩

theorem writtenList_canonF (H : Bytes → Bytes) :
    ∀ l p, p ∈ writtenList H (canonF l) → p ∈ writtenList H l := by
  intro l
  induction l using fsInd with
  | hnil =>
    intro p hp
    rw [show canonF [] = [] from rfl] at hp
    exact hp
  | hfile n c rest ih =>
    intro p hp
    by_cases hig : n = ignoredName
    · rw [show canonF ((n, Fsnode.file c) :: rest) = canonF rest by
        rw [canonF]; simp [hig]] at hp
      have := ih p hp
      rw [mem_writtenList] at this ⊢
      obtain ⟨x, hx, hpx⟩ := this
      exact ⟨x, by rw [filterIg_cons_neg n _ rest hig]; exact hx, hpx⟩
    · rw [show canonF ((n, Fsnode.file c) :: rest) =
          List.orderedInsert nameLe (n, Fsnode.file c) (canonF rest) by
        rw [canonF]; simp [hig]] at hp
      rw [mem_writtenList] at hp ⊢
      obtain ⟨x, hx, hpx⟩ := hp
      have hx2 : x ∈ List.orderedInsert nameLe (n, Fsnode.file c) (canonF rest) :=
        List.mem_of_mem_filter hx
      rcases (List.mem_orderedInsert nameLe).mp hx2 with h | h
      · exact ⟨(n, Fsnode.file c),
          by rw [filterIg_cons_pos n _ rest hig]; exact List.mem_cons_self _ _,
          h ▸ hpx⟩
      · have : p ∈ writtenList H (canonF rest) := by
          rw [mem_writtenList]
          exact ⟨x, by rw [filterIg_canonF]; exact h, hpx⟩
        have := ih p this
        rw [mem_writtenList] at this
        obtain ⟨z, hz, hpz⟩ := this
        exact ⟨z, by rw [filterIg_cons_pos n _ rest hig]; exact List.mem_cons_of_mem _ hz, hpz⟩
  | hdir n ccs rest ih1 ih2 =>
    intro p hp
    by_cases hig : n = ignoredName
    · rw [show canonF ((n, Fsnode.dir ccs) :: rest) = canonF rest by
        rw [canonF]; simp [hig]] at hp
      have := ih2 p hp
      rw [mem_writtenList] at this ⊢
      obtain ⟨x, hx, hpx⟩ := this
      exact ⟨x, by rw [filterIg_cons_neg n _ rest hig]; exact hx, hpx⟩
    · rw [show canonF ((n, Fsnode.dir ccs) :: rest) =
          List.orderedInsert nameLe (n, Fsnode.dir (canonF ccs)) (canonF rest) by
        rw [canonF]; simp [hig]] at hp
      rw [mem_writtenList] at hp ⊢
      obtain ⟨x, hx, hpx⟩ := hp
      have hx2 : x ∈ List.orderedInsert nameLe (n, Fsnode.dir (canonF ccs)) (canonF rest) :=
        List.mem_of_mem_filter hx
      rcases (List.mem_orderedInsert nameLe).mp hx2 with h | h
      · subst h
        have hpx2 : p ∈ writtenNode H (canonF ccs) := hpx
        have hpx3 : p ∈ writtenNode H ccs := by
          rw [writtenNode] at hpx2 ⊢
          rcases List.mem_cons.mp hpx2 with h2 | h2
          · rw [treeOid_canon, treeObj_canon] at h2
            exact h2 ▸ List.mem_cons_self _ _
          · exact List.mem_cons_of_mem _ (ih1 p h2)
        exact ⟨(n, Fsnode.dir ccs),
          by rw [filterIg_cons_pos n _ rest hig]; exact List.mem_cons_self _ _, hpx3⟩
      · have : p ∈ writtenList H (canonF rest) := by
          rw [mem_writtenList]
          exact ⟨x, by rw [filterIg_canonF]; exact h, hpx⟩
        have := ih2 p this
        rw [mem_writtenList] at this
        obtain ⟨z, hz, hpz⟩ := this
        exact ⟨z, by rw [filterIg_cons_pos n _ rest hig]; exact List.mem_cons_of_mem _ hz, hpz⟩

theorem writtenNode_canonF (H : Bytes → Bytes) (cs : List (Bytes × Fsnode))
    (p : Bytes × Bytes) (hp : p ∈ writtenNode H (canonF cs)) :
    p ∈ writtenNode H cs := by
  rw [writtenNode] at hp ⊢
  rcases List.mem_cons.mp hp with h | h
  · rw [treeOid_canon, treeObj_canon] at h
    exact h ▸ List.mem_cons_self _ _
  · exact List.mem_cons_of_mem _ (writtenList_canonF H cs p h)

theorem goodC_mem : ∀ l, goodC l → ∀ x ∈ l,
    validName x.1 ∧ x.1 ≠ ignoredName ∧ nodeGood x.2 := by
  intro l
  induction l with
  | nil => intro _ x hx; simp at hx
  | cons y rest ih =>
    intro hg x hx
    obtain ⟨n, node⟩ := y
    obtain ⟨h1, h2, _, h4, h5⟩ := (goodC_cons n node rest).mp hg
    rcases List.mem_cons.mp hx with h | h
    · subst h; exact ⟨h1, h2, h4⟩
    · exact ih h5 x h

theorem goodC_pairwise : ∀ l, goodC l → List.Pairwise (fun a b : Bytes × Fsnode => lexLtB a.1 b.1 = true) l := by
  intro l
  induction l with
  | nil => intro _; exact List.Pairwise.nil
  | cons y rest ih =>
    intro hg
    obtain ⟨n, node⟩ := y
    obtain ⟨_, _, h3, _, h5⟩ := (goodC_cons n node rest).mp hg
    exact List.Pairwise.cons h3 (ih h5)

theorem filterIg_of_goodC (l : List (Bytes × Fsnode)) (hg : goodC l) :
    filterIg l = l := by
  rw [filterIg, List.filter_eq_self]
  intro y hy
  simpa using (goodC_mem l hg y hy).2.1

theorem entryOfOne_fst (H : Bytes → Bytes) (x : Bytes × Fsnode) :
    (entryOfOne H x).1 = x.1 := by
  obtain ⟨n, node⟩ := x
  cases node <;> rfl

theorem sortE_of_goodC (H : Bytes → Bytes) (l : List (Bytes × Fsnode)) (hg : goodC l) :
    sortE (entriesOf H l) = l.map (entryOfOne H) := by
  rw [entriesOf_eq_map, filterIg_of_goodC l hg]
  refine List.Sorted.insertionSort_eq ?_
  rw [List.Sorted, List.pairwise_map]
  refine (goodC_pairwise l hg).imp ?_
  intro a b hab
  unfold entryLe entryLeB
  rw [entryOfOne_fst, entryOfOne_fst, if_neg (lexLtB_ne _ _ hab)]
  exact hab

/-- Reading back a stored tree object yields its serialized entries. -/
theorem get_object_tree (H : Bytes → Bytes) (sF : Store) (cs : List (Bytes × Fsnode))
    (hfun : functionalStore sF) (hmem : (treeOidD H cs, treeObjD H cs) ∈ sF) :
    get_object sF (treeOidD H cs) (some treeT) =
      some (serializeEntries (sortE (entriesOf H cs))) := by
  have hpart : partitionNul (treeObjD H cs) =
      (treeT, serializeEntries (sortE (entriesOf H cs))) :=
    partitionNul_append treeT _ (by decide)
  rw [get_object, lookupA_functional sF _ _ hfun hmem]
  simp [hpart]

/-- The entry loop of get_tree over a canonical child list. -/
theorem getTreeGo_canon (H : Bytes → Bytes) (sF : Store) (f : Nat)
    (IH : ∀ cs base, goodC cs → heightL cs < f →
      (∀ p ∈ writtenNode H cs, p ∈ sF) →
      get_tree sF f (treeOidD H cs) base = some (flattenC H base cs)) :
    ∀ l base, goodC l → (∀ x ∈ l, heightOne x ≤ f) →
      (∀ x ∈ l, ∀ p ∈ writtenOne H x, p ∈ sF) →
      getTreeGo sF (get_tree sF f) base (l.map (fun x => swapE (entryOfOne H x))) =
        some (flattenC H base l) := by
  intro l
  induction l with
  | nil =>
    intro base _ _ _
    rw [List.map_nil]
    simp [getTreeGo, flattenC]
  | cons x rest ihl =>
    intro base hg hhe hwr
    obtain ⟨m, node⟩ := x
    obtain ⟨hvn, hig, _, hnode, hgrest⟩ := (goodC_cons m node rest).mp hg
    have hslash : ¬ ('/' ∈ m) := fun hmem => (hvn.2.1 '/' hmem).2 rfl
    have hdots : ¬ (m = dotdotName ∨ m = dotName) := by
      rintro (h | h)
      · exact hvn.2.2.2 h
      · exact hvn.2.2.1 h
    have hherest : ∀ y ∈ rest, heightOne y ≤ f :=
      fun y hy => hhe y (List.mem_cons_of_mem _ hy)
    have hwrrest : ∀ y ∈ rest, ∀ p ∈ writtenOne H y, p ∈ sF :=
      fun y hy => hwr y (List.mem_cons_of_mem _ hy)
    have htail := ihl base hgrest hherest hwrrest
    cases node with
    | file c =>
      rw [List.map_cons,
        show swapE (entryOfOne H (m, Fsnode.file c)) =
          (blobT, H (blobT ++ nulC :: c), m) from rfl]
      simp only [getTreeGo]
      rw [if_neg hslash, if_neg hdots, if_pos trivial, htail]
      rw [show flattenC H base ((m, Fsnode.file c) :: rest) =
        (joinPath base m, H (blobT ++ nulC :: c)) :: flattenC H base rest from by
        rw [flattenC]]
    | dir X =>
      rw [List.map_cons,
        show swapE (entryOfOne H (m, Fsnode.dir X)) =
          (treeT, treeOidD H X, m) from rfl]
      have hXh : heightL X < f := by
        have := hhe (m, Fsnode.dir X) (List.mem_cons_self _ _)
        have h2 : heightOne (m, Fsnode.dir X) = heightL X + 1 := rfl
        omega
      have hXw : ∀ p ∈ writtenNode H X, p ∈ sF :=
        fun p hp => hwr (m, Fsnode.dir X) (List.mem_cons_self _ _) p hp
      have hsubtree := IH X (joinPath base m ++ ['/']) hnode hXh hXw
      simp only [getTreeGo]
      rw [if_neg hslash, if_neg hdots, if_neg (by decide), if_pos trivial, hsubtree, htail]
      rw [show flattenC H base ((m, Fsnode.dir X) :: rest) =
        flattenC H (joinPath base m ++ ['/']) X ++ flattenC H base rest from by
        rw [flattenC]]

/-- get_tree over the store write_tree produced reproduces the canonical
flattened mapping, for any canonical and valid snapshot. -/
theorem get_tree_canon (H : Bytes → Bytes) (sF : Store)
    (hfun : functionalStore sF) (hws : wsFreeOids sF) :
    ∀ fuel cs base, goodC cs → heightL cs < fuel →
      (∀ p ∈ writtenNode H cs, p ∈ sF) →
      get_tree sF fuel (treeOidD H cs) base = some (flattenC H base cs) := by
  intro fuel
  induction fuel with
  | zero => intro cs base _ hh; omega
  | succ f IH =>
    intro cs base hg hh hsub
    have hmemtree : (treeOidD H cs, treeObjD H cs) ∈ sF :=
      hsub _ (by rw [writtenNode]; exact List.mem_cons_self _ _)
    have hoidne : ¬ (treeOidD H cs = []) := (hws _ hmemtree).1
    have hwrsub : ∀ x ∈ cs, ∀ p ∈ writtenOne H x, p ∈ sF := by
      intro x hx p hp
      refine hsub p ?_
      rw [writtenNode]
      refine List.mem_cons_of_mem _ ?_
      rw [mem_writtenList]
      exact ⟨x, by rw [filterIg_of_goodC cs hg]; exact hx, hp⟩
    have hvalid : ∀ e ∈ sortE (entriesOf H cs), entryValid e := by
      intro e he
      have he2 : e ∈ entriesOf H cs := (sortE_perm _).mem_iff.mp he
      rw [entriesOf_eq_map, filterIg_of_goodC cs hg] at he2
      obtain ⟨x, hx, hxe⟩ := List.mem_map.mp he2
      obtain ⟨hvn, _, _⟩ := goodC_mem cs hg x hx
      have hblob1 : (blobT : Bytes) ≠ [] := by decide
      have hblob2 : ∀ ch ∈ (blobT : Bytes), ¬ (isWs ch = true) := by decide
      have htree1 : (treeT : Bytes) ≠ [] := by decide
      have htree2 : ∀ ch ∈ (treeT : Bytes), ¬ (isWs ch = true) := by decide
      obtain ⟨m, node⟩ := x
      cases node with
      | file c =>
        have hb : (H (blobT ++ nulC :: c), blobT ++ nulC :: c) ∈ sF :=
          hwrsub (m, Fsnode.file c) hx _ (by rw [writtenOne]; exact List.mem_cons_self _ _)
        have hws2 := hws _ hb
        have hev : entryValid (m, H (blobT ++ nulC :: c), blobT) :=
          ⟨⟨hvn.1, fun ch hch => ((hvn.2.1) ch hch).1⟩,
            ⟨hws2.1, hws2.2⟩, hblob1, hblob2⟩
        rw [← hxe]
        exact hev
      | dir X =>
        have hb : (treeOidD H X, treeObjD H X) ∈ sF :=
          hwrsub (m, Fsnode.dir X) hx _
            (by rw [writtenOne, writtenNode]; exact List.mem_cons_self _ _)
        have hws2 := hws _ hb
        have hev : entryValid (m, treeOidD H X, treeT) :=
          ⟨⟨hvn.1, fun ch hch => ((hvn.2.1) ch hch).1⟩,
            ⟨hws2.1, hws2.2⟩, htree1, htree2⟩
        rw [← hxe]
        exact hev
    have hparse : iterate_tree_entries sF (treeOidD H cs) =
        some ((sortE (entriesOf H cs)).map swapE) := by
      rw [iterate_tree_entries, if_neg hoidne, get_object_tree H sF cs hfun hmemtree]
      exact parseLines_serialize _ hvalid
    rw [get_tree]
    simp only [hparse]
    rw [sortE_of_goodC H cs hg, List.map_map]
    have hhe : ∀ x ∈ cs, heightOne x ≤ f := by
      intro x hx
      have := heightOne_le_heightL x cs hx
      omega
    exact getTreeGo_canon H sF f (fun cs2 base2 => IH cs2 base2) cs base hg hhe hwrsub

/-- C7 (amended): writing a snapshot whose names are valid tokens
(nonempty, whitespace- and slash-free, not `.`/`..`), and whose written
objects suffered no digest collision, then flattening the returned digest
with get_tree reproduces exactly the snapshot's path ↦ blob-digest
mapping (`flattenC` over the canonical snapshot: every non-ignored file's
relative path with the digest of its blob object, in get_tree's sorted
traversal order). -/
theorem c7_write_get_roundtrip (H : Bytes → Bytes) (cs : List (Bytes × Fsnode))
    (fuel : Nat) (hh : heightL cs < fuel) (hv : validL cs)
    (hfun : functionalStore (write_tree H [] cs).2)
    (hws : wsFreeOids (write_tree H [] cs).2) :
    get_tree (write_tree H [] cs).2 fuel (write_tree H [] cs).1 [] =
      some (flattenC H [] (canonF cs)) := by
  have hsnd : (write_tree H [] cs).2 = writtenNode H cs := by
    rw [write_tree_fst]
    simp
  have hfst : (write_tree H [] cs).1 = treeOidD H cs := by
    rw [write_tree_fst]
  rw [hsnd] at hfun hws ⊢
  rw [hfst, ← treeOid_canon H cs]
  refine get_tree_canon H (writtenNode H cs) hfun hws fuel (canonF cs) []
    (goodC_canonF cs hv) (lt_of_le_of_lt (heightL_canonF cs) hh) ?_
  intro p hp
  exact writtenNode_canonF H cs p hp

/-- A one-file snapshot whose file name contains a space. -/
def spaceFs : List (Bytes × Fsnode) := [("a b".data, Fsnode.file "x".data)]

/-- Witness for C7: a two-level snapshot round trips through
write_tree/get_tree onto its flattened mapping. -/
theorem c7_roundtrip_witness :
    heightL [("b".data, Fsnode.file "yz".data),
             ("a".data, Fsnode.dir [("c".data, Fsnode.file "q".data)])] < 3 ∧
    validL [("b".data, Fsnode.file "yz".data),
            ("a".data, Fsnode.dir [("c".data, Fsnode.file "q".data)])] ∧
    functionalStore (write_tree tinyH []
      [("b".data, Fsnode.file "yz".data),
       ("a".data, Fsnode.dir [("c".data, Fsnode.file "q".data)])]).2 ∧
    wsFreeOids (write_tree tinyH []
      [("b".data, Fsnode.file "yz".data),
       ("a".data, Fsnode.dir [("c".data, Fsnode.file "q".data)])]).2 ∧
    get_tree (write_tree tinyH []
        [("b".data, Fsnode.file "yz".data),
         ("a".data, Fsnode.dir [("c".data, Fsnode.file "q".data)])]).2 3
      (write_tree tinyH []
        [("b".data, Fsnode.file "yz".data),
         ("a".data, Fsnode.dir [("c".data, Fsnode.file "q".data)])]).1 [] =
      some (flattenC tinyH [] (canonF
        [("b".data, Fsnode.file "yz".data),
         ("a".data, Fsnode.dir [("c".data, Fsnode.file "q".data)])])) :=
  ⟨heightL_lt_of_fits _ 3 (by decide),
   validL_of_validLF _ 3 (by decide),
   by rw [write_treeF_eq tinyH 3 [] _ (by decide)]; decide,
   by rw [write_treeF_eq tinyH 3 [] _ (by decide)]; decide,
   c7_write_get_roundtrip tinyH
     [("b".data, Fsnode.file "yz".data),
      ("a".data, Fsnode.dir [("c".data, Fsnode.file "q".data)])] 3
     (heightL_lt_of_fits _ 3 (by decide))
     (validL_of_validLF _ 3 (by decide))
     (by rw [write_treeF_eq tinyH 3 [] _ (by decide)]; decide)
     (by rw [write_treeF_eq tinyH 3 [] _ (by decide)]; decide)⟩

/-- C7 counterexample: a file name containing a space breaks the claimed
round trip for every tree: write_tree serializes the entry, but
get_tree's whitespace split finds four fields and fails, returning
nothing — while the original snapshot's mapping is nonempty. -/
theorem c7_counterexample :
    get_tree (write_tree tinyH [] spaceFs).2 3 (write_tree tinyH [] spaceFs).1 [] = none ∧
    flattenC tinyH [] (canonF spaceFs) ≠ [] := by
  constructor
  · rw [write_treeF_eq tinyH 2 [] spaceFs (by decide)]
    decide
  · rw [canonF_eq spaceFs 2 (by decide)]
    decide

/-- C8: write_tree's digest is a pure function of the snapshot's sorted
(name, content) entry set: two snapshots with the same canonical form —
the same entries in any enumeration order, recursively — receive the
same tree digest, whatever the stores they are written into. -/
theorem c8_tree_determinism (H : Bytes → Bytes) (s₁ s₂ : Store)
    (cs₁ cs₂ : List (Bytes × Fsnode)) (h : canonF cs₁ = canonF cs₂) :
    (write_tree H s₁ cs₁).1 = (write_tree H s₂ cs₂).1 := by
  rw [write_tree_fst, write_tree_fst]
  show treeOidD H cs₁ = treeOidD H cs₂
  rw [← treeOid_canon H cs₁, h, treeOid_canon H cs₂]

/-- Witness for C8: the same three files, enumerated in two different
orders (at both levels), produce the same tree digest. -/
theorem c8_witness :
    canonF [("b".data, Fsnode.file "x".data),
            ("a".data, Fsnode.dir [("d".data, Fsnode.file "y".data),
                                   ("c".data, Fsnode.file "z".data)])] =
      canonF [("a".data, Fsnode.dir [("c".data, Fsnode.file "z".data),
                                     ("d".data, Fsnode.file "y".data)]),
              ("b".data, Fsnode.file "x".data)] ∧
    (write_tree hexH []
      [("b".data, Fsnode.file "x".data),
       ("a".data, Fsnode.dir [("d".data, Fsnode.file "y".data),
                              ("c".data, Fsnode.file "z".data)])]).1 =
    (write_tree hexH [("k".data, "v".data)]
      [("a".data, Fsnode.dir [("c".data, Fsnode.file "z".data),
                              ("d".data, Fsnode.file "y".data)]),
       ("b".data, Fsnode.file "x".data)]).1 :=
  ⟨by rw [canonF_eq _ 3 (by decide), canonF_eq _ 3 (by decide)]; rfl,
   c8_tree_determinism hexH [] [("k".data, "v".data)] _ _
     (by rw [canonF_eq _ 3 (by decide), canonF_eq _ 3 (by decide)]; rfl)⟩

/-! ## C5: committing while a merge is in progress (base.py commit) -/

def mergeName : Bytes := "Merge".data
def parentSp : Bytes := "parent ".data
def parentNoSp : Bytes := "parent".data

/-- data.delete_ref fails (FileNotFoundError from os.remove) on a name
with no ref file. -/
theorem delete_ref_missing (rs : Refs) (name : Bytes)
    (h : lookupA rs name = none) : delete_ref rs name = none := by
  have h1 : get_ref_internal rs (0 + 1) name false = some (name, ⟨false, none⟩) := by
    simp [get_ref_internal, readRefStep, h, truthy]
  show delete_ref rs name = none
  unfold delete_ref
  rw [show (1 : Nat) = 0 + 1 from rfl, h1]
  simp [h]

/-- base.commit: builds the commit text exactly as the source does —
`"tree" ++ oid ++ "\n"` with no space, a `"parent " ++ HEAD` line when
HEAD resolves to a truthy value, a `"parent" ++ MERGE_HEAD` line (again
no space) when MERGE_HEAD does, in which case it then calls
`data.delete_ref "Merge"` — the name `Merge`, not `MERGE_HEAD` — whose
`os.remove` raises FileNotFoundError when no ref named `Merge` exists
(modelled as `Except.error ()`), aborting the commit.  On success it
hashes the text as a commit object and writes HEAD directly through the
deref-ignoring update_ref.  The outer `none` models fuel exhaustion of
the unbounded ref resolution. -/
def commit (H : Bytes → Bytes) (fuel : Nat) (s : Store) (rs : Refs)
    (workdir : List (Bytes × Fsnode)) (message : Bytes) :
    Option (Except Unit (Bytes × Store × Refs)) :=
  let wt := write_tree H s workdir
  let c₀ := treeT ++ wt.1 ++ ['\n']
  match get_ref rs fuel headName true with
  | none => none
  | some headRv =>
    let c₁ :=
      if truthy headRv.value then c₀ ++ parentSp ++ headRv.value.getD [] ++ ['\n']
      else c₀
    match get_ref rs fuel mergeHeadName true with
    | none => none
    | some mhRv =>
      if truthy mhRv.value then
        let c₂ := c₁ ++ parentNoSp ++ mhRv.value.getD [] ++ ['\n']
        match delete_ref rs mergeName with
        | none => some (Except.error ())
        | some rs₂ =>
          let c₃ := c₂ ++ '\n' :: message ++ ['\n']
          let ho := hash_object H wt.2 c₃ commitT
          some (Except.ok (ho.1, ho.2, update_ref rs₂ headName ho.1 true))
      else
        let c₃ := c₁ ++ '\n' :: message ++ ['\n']
        let ho := hash_object H wt.2 c₃ commitT
        some (Except.ok (ho.1, ho.2, update_ref rs headName ho.1 true))

/-- C5: a commit created while MERGE_HEAD is set neither produces a
two-parent commit object nor clears MERGE_HEAD — it does not complete at
all: the source deletes the ref named `Merge` instead of `MERGE_HEAD`,
and when no ref of that name exists the deletion raises
FileNotFoundError, aborting the commit before any object is written and
leaving MERGE_HEAD in place. -/
theorem c5_commit_with_merge_head_aborts (H : Bytes → Bytes) (fuel : Nat)
    (s : Store) (rs : Refs) (workdir : List (Bytes × Fsnode)) (message : Bytes)
    (headRv mhRv : RefValue)
    (hh : get_ref rs fuel headName true = some headRv)
    (hm : get_ref rs fuel mergeHeadName true = some mhRv)
    (hmt : truthy mhRv.value = true)
    (hnoMerge : lookupA rs mergeName = none) :
    commit H fuel s rs workdir message = some (Except.error ()) := by
  have hdel := delete_ref_missing rs mergeName hnoMerge
  unfold commit
  rw [hh, hm]
  simp [hmt, hdel]

def c5refs : Refs := [(headName, "c0".data), (mergeHeadName, "c9".data)]

/-- Witness for C5: with HEAD at `c0` and MERGE_HEAD at `c9` (and no ref
named `Merge`), commit aborts with the delete error. -/
theorem c5_witness :
    commit tinyH 2 [] c5refs [] "m".data = some (Except.error ()) :=
  c5_commit_with_merge_head_aborts tinyH 2 [] c5refs [] "m".data
    ⟨false, some "c0".data⟩ ⟨false, some "c9".data⟩
    (by decide) (by decide) (by decide) (by decide)

/-! ## C6: merge convergence (spec-modelled; src has no diff.py) -/

/-- Modelled from the spec: the per-path three-way rule of merge_trees
over optional digests (`none` = path absent on that side): equal
head/other digests are taken with no conflict (including both-delete); a
side equal to base yields the changed side; otherwise the path is
conflicted and maps to a content-level merge of the three blobs,
abstracted here as the parameter `cmerge` (the identical-head/other case
of the claim never reaches it). -/
def mergePath (cmerge : Option Bytes → Option Bytes → Option Bytes → Bytes)
    (b h o : Option Bytes) : Option Bytes × Bool :=
  if h = o then (h, false)
  else if b = h then (o, false)
  else if b = o then (h, false)
  else (some (cmerge b h o), true)

/-- Modelled from the spec: `merge_trees base head other` over flattened
trees (path ↦ digest association lists): every path in the union of the
three key sets is decided by `mergePath`; the result is the merged
mapping (paths whose decision is `none` stay absent) together with the
conflicted paths.  base.read_tree_merged calls diff.merge_trees, but
diff.py is not part of the source tree. -/
def merge_trees (cmerge : Option Bytes → Option Bytes → Option Bytes → Bytes)
    (base head other : List (Bytes × Bytes)) :
    List (Bytes × Bytes) × List Bytes :=
  let paths := (base.map Prod.fst ++ head.map Prod.fst ++ other.map Prod.fst).dedup
  (paths.filterMap (fun p =>
      ((mergePath cmerge (lookupA base p) (lookupA head p) (lookupA other p)).1).map
        (fun d => (p, d))),
   paths.filter (fun p =>
      (mergePath cmerge (lookupA base p) (lookupA head p) (lookupA other p)).2))

theorem lookupA_not_mem {α : Type} (q : Bytes) :
    ∀ (s : List (Bytes × α)), q ∉ s.map Prod.fst → lookupA s q = none := by
  intro s
  induction s with
  | nil => intro _; rfl
  | cons x rest ih =>
    intro h
    obtain ⟨k, v⟩ := x
    simp only [List.map_cons, List.mem_cons] at h
    push_neg at h
    have hk : k ≠ q := fun hkq => h.1 hkq.symm
    simp [lookupA, hk, ih h.2]

theorem lookupA_filterMap (f : Bytes → Option Bytes) :
    ∀ (ps : List Bytes) (q : Bytes),
    lookupA (ps.filterMap (fun p => (f p).map (fun d => (p, d)))) q =
      if q ∈ ps then f q else none := by
  intro ps
  induction ps with
  | nil => intro q; simp [lookupA]
  | cons p rest ih =>
    intro q
    cases hfp : f p with
    | none =>
      rw [List.filterMap_cons_none (by simp [hfp]), ih]
      by_cases hq : q = p
      · subst hq
        by_cases hr : q ∈ rest <;> simp [hr, hfp]
      · simp [List.mem_cons, hq]
    | some d =>
      have hstep : List.filterMap (fun p => Option.map (fun d => (p, d)) (f p)) (p :: rest)
          = (p, d) :: List.filterMap (fun p => Option.map (fun d => (p, d)) (f p)) rest :=
        List.filterMap_cons_some (by simp [hfp])
      rw [hstep]
      by_cases hq : q = p
      · subst hq
        simp [lookupA, hfp]
      · have hpq : p ≠ q := fun hpq => hq hpq.symm
        simp [lookupA, hpq, ih, List.mem_cons, hq]

/-- C6: merge convergence — for every base and every pair of identical
head/other flattened trees, merge_trees returns zero conflicted paths
and a mapping extensionally equal to head, whatever the blob-level merge
function: when head and other hold the same digest for a path (including
agreement on absence), that digest is taken with no conflict. -/
theorem c6_merge_convergence
    (cmerge : Option Bytes → Option Bytes → Option Bytes → Bytes)
    (base head : List (Bytes × Bytes)) :
    (merge_trees cmerge base head head).2 = [] ∧
    ∀ p, lookupA (merge_trees cmerge base head head).1 p = lookupA head p := by
  constructor
  · simp [merge_trees, mergePath]
  · intro q
    have hmap :
        (merge_trees cmerge base head head).1 =
        ((base.map Prod.fst ++ head.map Prod.fst ++ head.map Prod.fst).dedup).filterMap
          (fun p => (lookupA head p).map (fun d => (p, d))) := by
      simp [merge_trees, mergePath]
    rw [hmap, lookupA_filterMap (lookupA head)]
    by_cases hq : q ∈ (base.map Prod.fst ++ head.map Prod.fst ++ head.map Prod.fst).dedup
    · rw [if_pos hq]
    · rw [if_neg hq]
      have hnm : q ∉ head.map Prod.fst := by
        intro hmem
        exact hq (List.mem_dedup.mpr (by simp [hmem]))
      exact (lookupA_not_mem q head hnm).symm

/-! ## C2: the push fast-forward check (remote.py; ancestry spec-modelled) -/

def treeSp : Bytes := "tree ".data

/-- The header lines of a stored commit payload: everything before the
first blank line. -/
def headerLines (payload : Bytes) : List Bytes :=
  (splitLinesCL payload).takeWhile (fun l => !l.isEmpty)

def parentOf (l : Bytes) : Option Bytes :=
  if parentSp.isPrefixOf l then some (l.drop 7) else none

/-- Modelled from the spec: the parents of a stored commit — the
header's `parent ` lines (the serialization base.commit uses for the
HEAD parent). -/
def commitParentsOf (s : Store) (oid : Bytes) : List Bytes :=
  match lookupA s oid with
  | none => []
  | some obj =>
    let p := partitionNul obj
    if p.1 = commitT then (headerLines p.2).filterMap parentOf else []

/-- Modelled from the spec: `is_ancestor candidate of` — true iff
`candidate` is reachable by following parent links from `of`, or equal
to it.  base.is_ancestor_of is absent from base.py; push's own error
message ("{local_ref} is not an ancestor of {remote_ref}") fixes the
reading `is_ancestor_of a b = a is an ancestor of b`, which this
definition follows, with `fuel` bounding the walk. -/
def is_ancestor_of (s : Store) : Nat → Bytes → Bytes → Bool
  | 0, _, _ => false
  | fuel + 1, cand, ofc =>
    cand == ofc || (commitParentsOf s ofc).any (fun p => is_ancestor_of s fuel cand p)

/-- Modelled from the spec: the oids an object directly references — a
commit its tree and parents, a tree its entries, a blob nothing. -/
def objRefs (s : Store) (oid : Bytes) : List Bytes :=
  match lookupA s oid with
  | none => []
  | some obj =>
    let p := partitionNul obj
    if p.1 = commitT then
      (headerLines p.2).filterMap (fun l =>
        if treeSp.isPrefixOf l then some (l.drop 5)
        else if parentSp.isPrefixOf l then some (l.drop 7) else none)
    else if p.1 = treeT then
      match parseLines (splitLinesCL p.2) with
      | some es => es.map (fun e => e.2.1)
      | none => []
    else []

/-- Modelled from the spec: objects_reachable_from /
base.iter_objects_in_commits — the transitive closure of `objRefs` from
a worklist, recording each oid once; `fuel` bounds the walk. -/
def closure (s : Store) : Nat → List Bytes → List Bytes → List Bytes
  | 0, _, acc => acc
  | _ + 1, [], acc => acc
  | fuel + 1, oid :: rest, acc =>
    if oid ∈ acc then closure s fuel rest acc
    else closure s fuel (objRefs s oid ++ rest) (oid :: acc)

def iter_objects_in_commits (s : Store) (fuel : Nat) (oids : List Bytes) :
    List Bytes :=
  closure s fuel oids []

def refsHeads : Bytes := "refs/heads/".data
def refsRemote : Bytes := "refs/remote/".data

/-- The ref read remote._get_remote_refs intends: iter_refs of the
remote repository, mapped to the resolved values.  In the program this
read is dead code — it sits inside `with data.change_git_dir(...)`,
whose entry always raises (see `get_remote_refs_run`) — so a theorem
that routes through it as a successful branch proves only what must
already hold before the program could even reach that branch. -/
def get_remote_refs (rrs : Refs) (fuel : Nat) (pre : Bytes) :
    Option (List (Bytes × Option Bytes)) :=
  (iter_refs rrs fuel pre true).map (List.map (fun nr => (nr.1, nr.2.value)))

/-- remote._get_remote_refs as it actually runs.  data.change_git_dir is
decorated `@contextmanager`, but its body contains no yield — only
`return old_dir`.  Calling it therefore runs the body at once (the
global GIT_DIR is reassigned to `<remote>/.doppelgit`, with no
restoration), and the `with` statement's enter then calls `next()` on
the returned non-generator value, raising TypeError; _get_remote_refs's
except clause wraps any exception into RuntimeError.  Every call thus
raises before the ref read, for every remote: the observable result is
the constant error (`Except.error ()` = the RuntimeError), and the value
the dead read would have produced is `get_remote_refs` above. -/
def get_remote_refs_run (_rrs : Refs) (_fuel : Nat) (_pre : Bytes) :
    Except Unit (Option (List (Bytes × Option Bytes))) :=
  Except.error ()

inductive PushErr where
  | remoteRefsRuntime
  | noLocalRef
  | forcePush
  | changeDirTypeError
deriving DecidableEq, Repr

/-- data.push_object: copy one object file from the local store to the
remote store (`none` models the FileNotFoundError on a missing source
file). -/
def push_object (ls rstore : Store) (oid : Bytes) : Option Store :=
  match lookupA ls oid with
  | none => none
  | some obj => some (setA rstore oid obj)

def pushAll (ls : Store) : List Bytes → Store → Option Store
  | [], rstore => some rstore
  | oid :: rest, rstore =>
    match push_object ls rstore oid with
    | none => none
    | some r₂ => pushAll ls rest r₂

/-- remote.push as the program runs it.  Its first statement,
`remote_refs = _get_remote_refs(remote_path)`, raises RuntimeError for
every remote (`remoteRefsRuntime`; see `get_remote_refs_run`), so push
aborts before reading the local ref, before the ancestry guard, and
before copying any object or writing any ref — the remote is always
left unchanged and no push ever succeeds.  The rest of the function is
embedded from the source text as the dead branch: were the refs read
ever to return, the guard would still test
`is_ancestor_of(local_ref, remote_ref)` — the inverse of the spec's
`is_ancestor(remote_value, local_value)` — and the final statement
would enter `with data.change_git_dir(remote_path)` again, raising
TypeError (`changeDirTypeError`) before its body could hand update_ref
the RefValue namedtuple that write_to_file's f.write would itself
reject; a successful outcome does not occur in the source and has no
constructor here. -/
def push (fuel : Nat) (ls : Store) (lrs : Refs) (rstore : Store) (rrs : Refs)
    (refname : Bytes) : Option (Except PushErr (Store × Refs)) :=
  match get_remote_refs_run rrs fuel [] with
  | Except.error _ => some (Except.error PushErr.remoteRefsRuntime)
  | Except.ok deadRead =>
    match deadRead with
    | none => none
    | some remoteRefs =>
      match get_ref lrs fuel refname true with
      | none => none
      | some lrv =>
        if truthy lrv.value then
          let localRef := lrv.value.getD []
          let remoteRef : Option Bytes := (lookupA remoteRefs refname).getD none
          if truthy remoteRef && !(is_ancestor_of ls fuel localRef (remoteRef.getD [])) then
            some (Except.error PushErr.forcePush)
          else
            let knownRemote := (remoteRefs.filterMap (fun nr => nr.2)).filter
              (fun v => object_exists ls v)
            let remoteObjs := iter_objects_in_commits ls fuel knownRemote
            let localObjs := iter_objects_in_commits ls fuel [localRef]
            let toPush := localObjs.filter (fun o => !(remoteObjs.contains o))
            match pushAll ls toPush rstore with
            | none => none
            | some _ => some (Except.error PushErr.changeDirTypeError)
        else some (Except.error PushErr.noLocalRef)

def masterB : Bytes := "refs/heads/master".data

/-- The two-commit history of the C2 scenario: `c2oid2`'s commit has
`c2oid1` as its sole parent. -/
def c2p1 : Bytes := "\nfirst\n".data
def c2oid1 : Bytes := (hash_object tinyH [] c2p1 commitT).1
def c2s1 : Store := (hash_object tinyH [] c2p1 commitT).2
def c2p2 : Bytes := parentSp ++ c2oid1 ++ "\n\nsecond\n".data
def c2oid2 : Bytes := (hash_object tinyH c2s1 c2p2 commitT).1
def c2s2 : Store := (hash_object tinyH c2s1 c2p2 commitT).2

/-- C2: no push ever reaches the claimed behaviour.  remote.push's first
statement reads the remote's refs through data.change_git_dir, a
`@contextmanager` whose body has no yield, so entering it raises
TypeError (wrapped into RuntimeError) for every remote: push aborts with
that runtime error on every input — it never fails with the
non-fast-forward error, never leaves-the-remote-unchanged *as the
outcome of that check*, and never succeeds.  The last two conjuncts
certify, through the spec-modelled ancestry, that the concrete
two-commit history (remote ref at the parent `c2oid1`, local ref at the
child `c2oid2`) is exactly the strict-descendant case the claim says
must succeed with the remote ref becoming the local value — yet by the
first conjunct that push, too, only raises.  Were the refs read ever to
return, the embedded dead branch shows the guard is also inverted,
testing `is_ancestor_of local remote` against the spec's
`is_ancestor remote local`. -/
theorem c2_push_never_pushes :
    (∀ (fuel : Nat) (ls : Store) (lrs : Refs) (rstore : Store) (rrs : Refs)
      (refname : Bytes),
      push fuel ls lrs rstore rrs refname =
        some (Except.error PushErr.remoteRefsRuntime)) ∧
    is_ancestor_of c2s2 6 c2oid1 c2oid2 = true ∧
    is_ancestor_of c2s2 6 c2oid2 c2oid1 = false :=
  ⟨fun _ _ _ _ _ _ => rfl, by decide, by decide⟩

/-! ## C9: fetch (remote.py; object closure spec-modelled) -/

inductive FetchErr where
  | missingAttr
deriving DecidableEq, Repr

/-- remote.fetch, as the source has it: reads the remote's `refs/heads/`
refs, then iterates the commit closure of their values calling
`data.fetch_object_if_missing` — an attribute data.py does not define
(its function is `fetch_objects_if_missing`), so the first loop
iteration raises AttributeError (`Except.error .missingAttr`) before any
object is copied; only when the closure is empty does control reach the
loop that writes the `refs/remote/` tracking refs.  The closure is
computed against the local store (GIT_DIR is only changed inside
_get_remote_refs), and the remote object directory is never read. -/
def fetch (fuel : Nat) (ls : Store) (lrs : Refs) (rrs : Refs) :
    Option (Except FetchErr (Store × Refs)) :=
  match get_remote_refs rrs fuel refsHeads with
  | none => none
  | some refs =>
    let oids := iter_objects_in_commits ls fuel (refs.filterMap (fun nr => nr.2))
    if oids.isEmpty then
      some (Except.ok (ls, refs.foldl (fun acc nr =>
        update_ref acc (refsRemote ++ nr.1.drop refsHeads.length) (nr.2.getD []) true) lrs))
    else some (Except.error FetchErr.missingAttr)

theorem closure_sub (s : Store) :
    ∀ (fuel : Nat) (l acc : List Bytes), acc ⊆ closure s fuel l acc := by
  intro fuel
  induction fuel with
  | zero => intro l acc; simp [closure]
  | succ f ih =>
    intro l acc
    cases l with
    | nil => simp [closure]
    | cons o rest =>
      simp only [closure]
      by_cases ho : o ∈ acc
      · rw [if_pos ho]; exact ih rest acc
      · rw [if_neg ho]
        intro x hx
        exact ih (objRefs s o ++ rest) (o :: acc) (List.mem_cons_of_mem o hx)

theorem closure_cons_ne (s : Store) (fuel : Nat) (o : Bytes) (rest : List Bytes) :
    closure s (fuel + 1) (o :: rest) [] ≠ [] := by
  intro hnil
  have hmem : o ∈ closure s fuel (objRefs s o ++ rest) [o] :=
    closure_sub s fuel (objRefs s o ++ rest) [o] (List.mem_singleton.mpr rfl)
  have heq : closure s (fuel + 1) (o :: rest) [] =
      closure s fuel (objRefs s o ++ rest) [o] := by
    simp only [closure]
    rw [if_neg (List.not_mem_nil o)]
  rw [heq] at hnil
  rw [hnil] at hmem
  exact List.not_mem_nil o hmem

/-- C9: fetch cannot be run at all, let alone idempotently: whenever the
remote has at least one branch ref, the object loop's call target
`data.fetch_object_if_missing` does not exist, so fetch aborts with
AttributeError before copying any object or writing any remote-tracking
ref.  The state the claim describes after "a single fetch" — objects
copied, refs/remote/ refs written — is never reached; the two-fetch
equation holds only because both runs crash having changed nothing. -/
theorem c9_fetch_always_raises (fuel : Nat) (ls : Store) (lrs : Refs)
    (rrs : Refs) (refs : List (Bytes × Option Bytes)) (o : Bytes) (vs : List Bytes)
    (h : get_remote_refs rrs (fuel + 1) refsHeads = some refs)
    (hne : refs.filterMap (fun nr => nr.2) = o :: vs) :
    fetch (fuel + 1) ls lrs rrs = some (Except.error FetchErr.missingAttr) := by
  have hcl : (iter_objects_in_commits ls (fuel + 1) (o :: vs)).isEmpty = false := by
    have hne2 := closure_cons_ne ls fuel o vs
    cases hres : closure ls (fuel + 1) (o :: vs) [] with
    | nil => exact absurd hres hne2
    | cons y ys => simp [iter_objects_in_commits, hres]
  unfold fetch
  rw [h]
  simp only [hne, hcl]
  rfl

def c9rrs : Refs := [("refs/heads/master".data, "aa".data)]

/-- Witness for C9: a remote with a single branch ref `master = aa`
makes fetch abort with the AttributeError. -/
theorem c9_witness :
    fetch 1 [] [] c9rrs = some (Except.error FetchErr.missingAttr) :=
  c9_fetch_always_raises 0 [] [] c9rrs
    [("refs/heads/master".data, some "aa".data)] "aa".data []
    (by rfl) (by rfl)

end Doppelgit
